import Mathlib

/-!
# lo8: host-side controller of the 8-track tape drive (`src/lo8.cpp`)

A shallow embedding of `lo8.cpp`.  The serial link, standard input, the
signal and the terminal are the environment of the program; they are
carried by an explicit `World` that every function threads through.

* Bytes (`unsigned char`) are `Fin 256`; C `int` values are `Int`.
* The link is scripted: `World.reads` lists what the successive
  `read(fd, _, 1)` calls return (error, nothing, one byte).  Past the end of
  the script `read` returns 0 for ever (end of file).  `World.writes` lists
  what the successive `write(fd, buf, 2)` calls return; past its end, 2.
* Loops that the C code does not bound (`while (true)` in `readLo8`, the read
  and write loops of `main`) take a fuel argument that bounds the number of
  iterations; running out of fuel is `none`.
* `readLo8` returns `*((int *) buf)` for a 2-byte `buf`: the load is modelled
  little endian, its upper half being whatever lies behind `buf`
  (`World.junk`).  `sendLo8` stores that `int` back through `(int *) buf`;
  the store is taken to change `buf[0]` and `buf[1]` only.
* SIGINT is delivered by the environment (`World.sigint`); the program looks
  at the flag `interrupt` when it evaluates a loop condition and nowhere
  else, so the delivery is modelled at these points.
* Diagnostics written to `stderr` (`perror`, `fprintf(stderr, ..)`), the
  pauses (`usleep`, `sleep`), `fflush`, `fcntl` and `tcgetattr` change no
  state the program reads back; they are left out.
-/

namespace Lo8

/-- One `unsigned char`. -/
abbrev Byte := Fin 256

/-! ## Constants of `lo8.cpp` -/

def LO8_SYNTAX_ERROR : Int := -1
def LO8_NO_TAPE : Int := -2

def GET_STATUS : Byte := 0
def SET_TRACK : Byte := 1
def SEEK : Byte := 2
def START_MOTOR : Byte := 3
def STOP_MOTOR : Byte := 4
def WRITE : Byte := 5
def START_WRITE : Byte := 6
def STOP_WRITE : Byte := 7
def DATA : Byte := 8
def DATA_EOT : Byte := 9
def RESET_EOT : Byte := 10

/-- The `termios.h` speed constants `main` selects between (their numeric
values are not used by the program). -/
inductive Speed where
  | B4800 | B9600 | B19200 | B38400 | B57600 | B115200
  deriving DecidableEq

def default_baud_const : Speed := Speed.B9600

/-! ## The environment -/

/-- What one `read(fd, &buf[i], 1)` call returns. -/
inductive ReadRes where
  /-- The call returns a negative value. -/
  | err
  /-- The call returns 0: nothing was delivered. -/
  | zero
  /-- The call returns 1 and stores the byte. -/
  | byte (b : Byte)
  deriving DecidableEq

/-- What the program writes to standard output. -/
inductive OutEv where
  /-- The help text printed by `usage()`. -/
  | usage
  /-- `printf("Track: %i\n", n)`. -/
  | track (n : Int)
  /-- `printf("Tape: %s\n", ..)`: `Inserted` when true, `Absent` otherwise. -/
  | tape (inserted : Bool)
  /-- `printf("EOT: %s\n", ..)`: `Present` when true, `Absent` otherwise. -/
  | eot (present : Bool)
  /-- `putc(b, stdout)`. -/
  | putc (b : Byte)
  deriving DecidableEq

/-- The environment of one run and the trace the run leaves in it. -/
structure World where
  /-- Whether `open(device, ..)` returns -1. -/
  openFails : Bool
  /-- Results of the successive `read(fd, _, 1)` calls; afterwards 0. -/
  reads : List ReadRes
  /-- Results of the successive `write(fd, buf, 2)` calls; afterwards 2. -/
  writes : List Int
  /-- The two bytes that lie behind the 2-byte `buf` of `readLo8` and are
  picked up by the `int` load `*((int *) buf)`. -/
  junk : Nat
  /-- The bytes standard input still holds. -/
  stdin : List Byte
  /-- The end-of-file indicator of `stdin` (`feof`). -/
  stdinEof : Bool
  /-- When SIGINT arrives: `some k` delivers it after `k` further evaluations
  of a loop condition have seen the flag clear; `none` never. -/
  sigint : Option Nat
  /-- The global `bool interrupt`. -/
  interrupt : Bool
  /-- Whether `open` has been called. -/
  opened : Bool
  /-- Whether `close(fd)` has been called. -/
  closed : Bool
  /-- The speed set by `cfsetispeed` / `cfsetospeed`. -/
  speed : Option Speed
  /-- The frames handed to `write(fd, buf, 2)`, oldest first. -/
  sent : List (Byte × Byte)
  /-- Standard output, oldest first. -/
  stdout : List OutEv
  deriving DecidableEq

/-- A world in which nothing has happened yet. -/
def World.init (reads : List ReadRes) (stdin : List Byte) : World :=
  { openFails := false, reads := reads, writes := [], junk := 0, stdin := stdin,
    stdinEof := false, sigint := none, interrupt := false, opened := false,
    closed := false, speed := none, sent := [], stdout := [] }

/-- The system call `read(fd, &b, 1)`. -/
def sysRead (w : World) : ReadRes × World :=
  match w.reads with
  | [] => (ReadRes.zero, w)
  | r :: rest => (r, { w with reads := rest })

/-- The system call `write(fd, buf, 2)` with `buf = {b0, b1}`: its return value. -/
def sysWrite (b0 b1 : Byte) (w : World) : Int × World :=
  (w.writes.headD 2, { w with writes := w.writes.tail, sent := w.sent ++ [(b0, b1)] })

/-! ## The frame on the wire and in an `int` -/

/-- A 32-bit pattern read as a C `int`. -/
def toInt32 (n : Nat) : Int :=
  if n % 4294967296 < 2147483648 then (n % 4294967296 : Nat) else (n % 4294967296 : Nat) - 4294967296

/-- The value of `*((int *) buf)` for `buf = {b0, b1}` (little endian): the two
bytes of `buf` are the low half, the two bytes behind it the high half. -/
def packInt (b0 b1 : Byte) (junk : Nat) : Int :=
  toInt32 (b0.val + 256 * b1.val + 65536 * (junk % 65536))

/-- Byte 0 of an `int` in memory (`buf[0]` after `*((int *)buf) = v`). -/
def byte0 (v : Int) : Byte := ⟨(v % 256).toNat, by omega⟩

/-- Byte 1 of an `int` in memory (`buf[1]` after `*((int *)buf) = v`). -/
def byte1 (v : Int) : Byte := ⟨(v / 256 % 256).toNat, by omega⟩

/-! ## `readLo8` and `sendLo8` -/

/-- The `while (true)` loop of `readLo8`; `i` counts the bytes stored so far,
`b0` and `b1` are `buf[0]` and `buf[1]`. -/
def readLo8Loop : Nat → Nat → Byte → Byte → World → Option (Int × World)
  | 0, _, _, _, _ => none
  | fuel + 1, i, b0, b1, w =>
    match sysRead w with
    | (ReadRes.err, w1) => some (-1, w1)
    | (ReadRes.zero, w1) =>
      if i = 2 then some (packInt b0 b1 w1.junk, w1) else readLo8Loop fuel i b0 b1 w1
    | (ReadRes.byte b, w1) =>
      let b0 := if i = 0 then b else b0
      let b1 := if i = 0 then b1 else b
      if i + 1 = 2 then some (packInt b0 b1 w1.junk, w1) else readLo8Loop fuel (i + 1) b0 b1 w1

/-- Function `readLo8(fd)`: the two bytes read, as an `int`; -1 on error. -/
def readLo8 (fuel : Nat) (w : World) : Option (Int × World) :=
  readLo8Loop fuel 0 0 0 w

/-- Function `sendLo8(fd, cmd, data)`: the data byte of the response, or -1. -/
def sendLo8 (fuel : Nat) (cmd data : Byte) (w : World) : Option (Int × World) :=
  match sysWrite cmd data w with
  | (n, w1) =>
    if n ≠ 2 then some (-1, w1)
    else
      match readLo8 fuel w1 with
      | none => none
      | some (v, w2) =>
        if byte0 v ≠ cmd then some (-1, w2) else some ((byte1 v).val, w2)

/-- The C operator `&` between an `int` and a non-negative constant mask,
on the 32-bit two's complement pattern of the `int`. -/
def bitAnd (v : Int) (mask : Nat) : Int :=
  (((v % 4294967296).toNat &&& mask : Nat) : Int)

/-- The conversion of an `int` argument to an `unsigned char` parameter. -/
def ucharOfInt (v : Int) : Byte := ⟨(v % 256).toNat, by omega⟩

/-! ## The command wrappers -/

/-- Function `getTrack(fd)`. -/
def getTrack (fuel : Nat) (w : World) : Option (Int × World) :=
  (sendLo8 fuel GET_STATUS 0 w).map fun r => (bitAnd r.1 0x03, r.2)

/-- Function `getTapeIn(fd)`. -/
def getTapeIn (fuel : Nat) (w : World) : Option (Int × World) :=
  (sendLo8 fuel GET_STATUS 0 w).map fun r => (bitAnd r.1 0x08, r.2)

/-- Function `getEOT(fd)`. -/
def getEOT (fuel : Nat) (w : World) : Option (Int × World) :=
  (sendLo8 fuel GET_STATUS 1 w).map fun r => (bitAnd r.1 0x04, r.2)

/-- Function `resetEOT(fd)`. -/
def resetEOT (fuel : Nat) (w : World) : Option (Int × World) :=
  sendLo8 fuel RESET_EOT 0 w

/-- Function `setTrack(fd, track)`: the result of `sendLo8` is dropped. -/
def setTrack (fuel : Nat) (track : Int) (w : World) : Option World :=
  (sendLo8 fuel SET_TRACK (ucharOfInt track) w).map fun r => r.2

/-- Function `doSeek(fd)`. -/
def doSeek (fuel : Nat) (w : World) : Option World :=
  (sendLo8 fuel SEEK 0 w).map fun r => r.2

/-- Function `startWrite(fd)`. -/
def startWrite (fuel : Nat) (w : World) : Option World :=
  (sendLo8 fuel START_WRITE 0 w).map fun r => r.2

/-- Function `stopWrite(fd)`. -/
def stopWrite (fuel : Nat) (w : World) : Option World :=
  (sendLo8 fuel STOP_WRITE 0 w).map fun r => r.2

/-- Function `doWrite(fd, b)`: the `int` of `sendLo8` converted to `bool`. -/
def doWrite (fuel : Nat) (b : Byte) (w : World) : Option (Bool × World) :=
  (sendLo8 fuel WRITE b w).map fun r => (decide (r.1 ≠ 0), r.2)

/-- Function `startMotor(fd)`. -/
def startMotor (fuel : Nat) (w : World) : Option World :=
  (sendLo8 fuel START_MOTOR 0 w).map fun r => r.2

/-- Function `stopMotor(fd)`. -/
def stopMotor (fuel : Nat) (w : World) : Option World :=
  (sendLo8 fuel STOP_MOTOR 0 w).map fun r => r.2

/-! ## Output, input and the signal -/

/-- Function `usage()`. -/
def usage (w : World) : World := { w with stdout := w.stdout ++ [OutEv.usage] }

/-- The call `putc(b, stdout)`. -/
def putc (b : Byte) (w : World) : World := { w with stdout := w.stdout ++ [OutEv.putc b] }

/-- The call `getc(stdin)`: the next byte, or -1 with the end-of-file indicator set. -/
def getc (w : World) : Int × World :=
  match w.stdin with
  | [] => (-1, { w with stdinEof := true })
  | b :: rest => ((b.val : Int), { w with stdin := rest })

/-- The call `close(fd)`. -/
def close (w : World) : World := { w with closed := true }

def SIGINT : Int := 2

/-- Function `int_handler(signo)`. -/
def int_handler (signo : Int) (w : World) : World :=
  if signo = SIGINT then { w with interrupt := true } else w

/-- The environment's turn before a loop condition is evaluated: a SIGINT that
is due runs `int_handler`. -/
def pollSignal (w : World) : World :=
  match w.sigint with
  | none => w
  | some 0 => int_handler SIGINT { w with sigint := none }
  | some (k + 1) => { w with sigint := some k }

/-! ## `main` -/

/-- One result of `getopt_long`; the argument of `-b` and `-t` is given as the
value `strtol(optarg, NULL, 10)` returns.  The device name of `-d` is not
looked at by the program and is left out. -/
inductive Opt where
  | help
  | device
  | baud (v : Int)
  | track (v : Int)
  | seek
  | read
  | write
  | info
  | echo
  /-- Any other return value of `getopt_long` (`?`). -/
  | unknown
  deriving DecidableEq

/-- The locals of `main` that option parsing sets. -/
structure Vars where
  baud_const : Speed
  track : Int
  seek : Bool
  readRequested : Bool
  writeRequested : Bool
  info : Bool
  echo : Bool
  deriving DecidableEq

/-- The defaults `main` starts from. -/
def Vars.defaults : Vars :=
  { baud_const := default_baud_const, track := -1, seek := false, readRequested := false,
    writeRequested := false, info := false, echo := false }

/-- The option loop of `main`: `some rc` when `main` returns `rc` from inside
the loop, `none` when `getopt_long` reports the end of the options. -/
def parseOpts : List Opt → Vars → World → Option Int × Vars × World
  | [], v, w => (none, v, w)
  | Opt.help :: _, v, w => (some 0, v, usage w)
  | Opt.device :: rest, v, w => parseOpts rest v w
  | Opt.baud n :: rest, v, w =>
    if n = 4800 then parseOpts rest { v with baud_const := Speed.B4800 } w
    else if n = 9600 then parseOpts rest { v with baud_const := Speed.B9600 } w
    else if n = 19200 then parseOpts rest { v with baud_const := Speed.B19200 } w
    else if n = 38400 then parseOpts rest { v with baud_const := Speed.B38400 } w
    else if n = 57600 then parseOpts rest { v with baud_const := Speed.B57600 } w
    else if n = 115200 then parseOpts rest { v with baud_const := Speed.B115200 } w
    else (some (-1), v, usage w)
  | Opt.track n :: rest, v, w =>
    if n = 1 then parseOpts rest { v with track := 0 } w
    else if n = 2 then parseOpts rest { v with track := 1 } w
    else if n = 3 then parseOpts rest { v with track := 2 } w
    else if n = 4 then parseOpts rest { v with track := 3 } w
    else (some (-1), v, usage w)
  | Opt.seek :: rest, v, w => parseOpts rest { v with seek := true } w
  | Opt.info :: rest, v, w => parseOpts rest { v with info := true } w
  | Opt.read :: rest, v, w => parseOpts rest { v with readRequested := true } w
  | Opt.write :: rest, v, w => parseOpts rest { v with writeRequested := true } w
  | Opt.echo :: rest, v, w => parseOpts rest { v with echo := true } w
  | Opt.unknown :: _, v, w => (some LO8_SYNTAX_ERROR, v, usage w)

/-- The tape check that precedes every operation on the tape: `some rc` when
`main` returns `rc` there. -/
def tapeCheck (fuel : Nat) (w : World) : Option (Option Int × World) :=
  (getTapeIn fuel w).map fun r =>
    if r.1 = 0 then (some LO8_NO_TAPE, close r.2) else (none, r.2)

/-- Runs `k` unless `main` has returned or the fuel is spent. -/
def andThen (s : Option (Option Int × World)) (k : World → Option (Option Int × World)) :
    Option (Option Int × World) :=
  match s with
  | none => none
  | some (some rc, w) => some (some rc, w)
  | some (none, w) => k w

/-- Makes a step that cannot return from `main` one that can. -/
def noReturn (s : Option World) : Option (Option Int × World) :=
  s.map fun w => (none, w)

/-- Block `if (track != -1) { .. }` of `main`. -/
def trackTask (fuel : Nat) (v : Vars) (w : World) : Option (Option Int × World) :=
  if v.track ≠ -1 then
    andThen (tapeCheck fuel w) fun w1 => noReturn (setTrack fuel v.track w1)
  else some (none, w)

/-- Block `if (seek) { .. }` of `main`. -/
def seekTask (fuel : Nat) (v : Vars) (w : World) : Option (Option Int × World) :=
  if v.seek then
    andThen (tapeCheck fuel w) fun w1 => noReturn (doSeek fuel w1)
  else some (none, w)

/-- Block `if (info) { .. } else resetEOT(fd);` of `main`. -/
def infoTask (fuel : Nat) (v : Vars) (w : World) : Option World :=
  if v.info then
    match getTrack fuel w with
    | none => none
    | some (t, w1) =>
      let w2 := { w1 with stdout := w1.stdout ++ [OutEv.track (t + 1)] }
      match getTapeIn fuel w2 with
      | none => none
      | some (p, w3) =>
        let w4 := { w3 with stdout := w3.stdout ++ [OutEv.tape (decide (p ≠ 0))] }
        match getEOT fuel w4 with
        | none => none
        | some (e, w5) => some { w5 with stdout := w5.stdout ++ [OutEv.eot (decide (e ≠ 0))] }
  else (resetEOT fuel w).map fun r => r.2

/-- The read loop `while (!interrupt && !eot) { .. }` of `main`; the second
argument bounds the evaluations of the loop condition. -/
def readLoop (fuel : Nat) : Nat → Bool → World → Option World
  | 0, _, _ => none
  | n + 1, eot, w0 =>
    let w := pollSignal w0
    if !w.interrupt && !eot then
      match readLo8 fuel w with
      | none => none
      | some (d, w1) =>
        if byte0 d = DATA_EOT then readLoop fuel n true (putc (byte1 d) w1)
        else if byte0 d = DATA then readLoop fuel n eot (putc (byte1 d) w1)
        else readLoop fuel n eot w1
    else some w

/-- Block `if (readRequested) { .. }` of `main`. -/
def readTask (fuel : Nat) (v : Vars) (w : World) : Option (Option Int × World) :=
  if v.readRequested then
    andThen (tapeCheck fuel w) fun w1 =>
      noReturn ((startMotor fuel w1).bind fun w2 =>
        (readLoop fuel fuel false w2).bind fun w3 => stopMotor fuel w3)
  else some (none, w)

/-- The write loop `while (!interrupt && !eot && !feof(stdin)) { .. }` of `main`. -/
def writeLoop (fuel : Nat) (echo : Bool) : Nat → Bool → World → Option World
  | 0, _, _ => none
  | n + 1, eot, w0 =>
    let w := pollSignal w0
    if !w.interrupt && !eot && !w.stdinEof then
      match getc w with
      | (i, w1) =>
        if i ≥ 0 then
          match doWrite fuel (ucharOfInt i) w1 with
          | none => none
          | some (e, w2) =>
            writeLoop fuel echo n e (if echo then putc (ucharOfInt i) w2 else w2)
        else writeLoop fuel echo n eot w1
    else some w

/-- Block `if (writeRequested) { .. }` of `main`. -/
def writeTask (fuel : Nat) (v : Vars) (w : World) : Option (Option Int × World) :=
  if v.writeRequested then
    andThen (tapeCheck fuel w) fun w1 =>
      noReturn ((startWrite fuel w1).bind fun w2 =>
        (writeLoop fuel v.echo fuel false w2).bind fun w3 => stopWrite fuel w3)
  else some (none, w)

/-- The early tasks of `main` on the tape drive: track, seek, information. -/
def earlyTasks (fuel : Nat) (v : Vars) (w : World) : Option (Option Int × World) :=
  andThen (trackTask fuel v w) fun w1 =>
  andThen (seekTask fuel v w1) fun w2 =>
  noReturn (infoTask fuel v w2)

/-- What `main` does once the device is open and configured; `interrupt` is
cleared between the early tasks and the read and write requests. -/
def runDevice (fuel : Nat) (v : Vars) (w : World) : Option (Option Int × World) :=
  andThen (earlyTasks fuel v w) fun w3 =>
  andThen (readTask fuel v { w3 with interrupt := false }) fun w4 =>
  writeTask fuel v w4

/-- Function `main`: the value it returns and the world it leaves. -/
def main (fuel : Nat) (argv : List Opt) (w : World) : Option (Int × World) :=
  match parseOpts argv Vars.defaults w with
  | (some rc, _, w1) => some (rc, w1)
  | (none, v, w1) =>
    if (v.readRequested && v.writeRequested) || (!v.writeRequested && v.echo) then
      some (LO8_SYNTAX_ERROR, usage w1)
    else
      let w2 := { w1 with opened := true }
      if w2.openFails then some (-1, w2)
      else
        match runDevice fuel v { w2 with speed := some v.baud_const } with
        | none => none
        | some (some rc, w3) => some (rc, w3)
        | some (none, w3) => some (0, close w3)

/-! ## The link script -/

/-- The reads that deliver the frame `[a][b]`, one byte per call. -/
def frame (a b : Byte) : List ReadRes := [ReadRes.byte a, ReadRes.byte b]

/-- The reads that deliver a list of frames. -/
def frames : List (Byte × Byte) → List ReadRes
  | [] => []
  | f :: fs => frame f.1 f.2 ++ frames fs

/-- Reads that return 0, `k` of them. -/
def idle (k : Nat) : List ReadRes := List.replicate k ReadRes.zero

/-! ## Vocabulary of the statements -/

/-- The data bytes of the `DATA` frames of a list of frames, in order. -/
def dataBytes (fs : List (Byte × Byte)) : List Byte :=
  (fs.filter fun f => f.1 = DATA).map fun f => f.2

/-- The elements of a list up to and including the first one that satisfies
`p`; the whole list if none does. -/
def takeThrough {α : Type} (p : α → Bool) : List α → List α
  | [] => []
  | x :: xs => if p x then [x] else x :: takeThrough p xs

/-- Whether a `WRITE` response with data byte `q.2` reports end-of-tape. -/
def reportsEot (q : Byte × Byte) : Bool := decide (q.2 ≠ 0)

/-- The input bytes that get written, each with the data byte of its `WRITE`
response: those up to and including the first whose response reports
end-of-tape. -/
def written (inp es : List Byte) : List (Byte × Byte) :=
  takeThrough reportsEot (inp.zip es)

/-- How the link settles one request of the program. -/
inductive Reply where
  /-- The call `write` returns `n`, a value other than 2; nothing is read. -/
  | refused (n : Int)
  /-- The request is taken, and a `read` fails after the bytes `got` (none
  or one) have arrived. -/
  | broken (got : Option Byte)
  /-- The request is taken and the frame `[r0][r1]` arrives. -/
  | answered (r0 r1 : Byte)
  deriving DecidableEq

/-- What `write` returns on a request settled by `r`. -/
def Reply.writeResult : Reply → Int
  | Reply.refused n => n
  | Reply.broken _ => 2
  | Reply.answered _ _ => 2

/-- What the `read` calls return on a request settled by `r`. -/
def Reply.reads : Reply → List ReadRes
  | Reply.refused _ => []
  | Reply.broken none => [ReadRes.err]
  | Reply.broken (some a) => [ReadRes.byte a, ReadRes.err]
  | Reply.answered r0 r1 => frame r0 r1

/-- A refused `write` returns a value other than 2. -/
def Reply.WellFormed : Reply → Prop
  | Reply.refused n => n ≠ 2
  | Reply.broken _ => True
  | Reply.answered _ _ => True

/-- The value of `sendLo8(fd, cmd, data)` on a request settled by `r`: the
data byte of a frame that echoes `cmd`, and -1 otherwise. -/
def Reply.result (cmd : Byte) : Reply → Int
  | Reply.refused _ => -1
  | Reply.broken _ => -1
  | Reply.answered r0 r1 => if r0 = cmd then (r1.val : Int) else -1

/-- The `write` results of a list of replies, in order. -/
def writeResults (rs : List Reply) : List Int := rs.map Reply.writeResult

/-- The reads of a list of replies, in order. -/
def replyReads : List Reply → List ReadRes
  | [] => []
  | r :: rs => r.reads ++ replyReads rs

/-- The results of the next `k` calls of `write` on the script `ws`: its
entries in order, and 2 beyond its end. -/
def nextWrites : Nat → List Int → List Int
  | 0, _ => []
  | k + 1, ws => ws.headD 2 :: nextWrites k ws.tail

/-- Whether the reply `q.2` to the `WRITE` of the byte `q.1` ends the write
loop: `doWrite` returns true, the value of `sendLo8` being other than 0. -/
def endsWrite (q : Byte × Reply) : Bool := decide (q.2.result WRITE ≠ 0)

/-- The input bytes for which a `WRITE` is sent, each with the reply to it:
those up to and including the first whose reply ends the loop. -/
def served (inp : List Byte) (rs : List Reply) : List (Byte × Reply) :=
  takeThrough endsWrite (inp.zip rs)

/-- The baud rates `main` accepts. -/
def validBaud (n : Int) : Prop :=
  n = 4800 ∨ n = 9600 ∨ n = 19200 ∨ n = 38400 ∨ n = 57600 ∨ n = 115200

/-- What the option loop leaves: when it returns from `main`, the status is
-1, or 0 on `-h`, and only the help text has been printed; when it runs to
the end, every `-t` and `-b` value was accepted and the flags are those given. -/
def ParseOutcome (argv : List Opt) (v : Vars) (w : World) : Prop :=
  (∃ rc, parseOpts argv v w = (some rc, (parseOpts argv v w).2.1, usage w) ∧
    (rc = -1 ∨ (rc = 0 ∧ Opt.help ∈ argv))) ∨
  (parseOpts argv v w = (none, (parseOpts argv v w).2.1, w) ∧
    (∀ t, Opt.track t ∈ argv → 1 ≤ t ∧ t ≤ 4) ∧
    (∀ n, Opt.baud n ∈ argv → validBaud n) ∧
    ((parseOpts argv v w).2.1.readRequested = true ↔
      (v.readRequested = true ∨ Opt.read ∈ argv)) ∧
    ((parseOpts argv v w).2.1.writeRequested = true ↔
      (v.writeRequested = true ∨ Opt.write ∈ argv)) ∧
    ((parseOpts argv v w).2.1.echo = true ↔ (v.echo = true ∨ Opt.echo ∈ argv)))

/-- Frames that set nothing in motion: status query, track, seek, latch reset. -/
def Benign (fs : List (Byte × Byte)) : Prop :=
  ∀ f ∈ fs, f.1 = GET_STATUS ∨ f.1 = SET_TRACK ∨ f.1 = SEEK ∨ f.1 = RESET_EOT

/-- The run from `w` to `w'` ended at a tape check that found no tape: after
the frames `fs`, the frame `GET_STATUS 0` was the last one sent and its
`write` was accepted; the last two bytes read from the link are the response
`[GET_STATUS][s]` to it, with bit 3 of `s` clear (reads that returned 0 may
precede either byte; `c` is what the run read before); then the device was
closed. -/
def NoTapeExit (w w' : World) (fs : List (Byte × Byte)) : Prop :=
  ∃ (c : List ReadRes) (i j : Nat) (s : Byte),
    w'.sent = w.sent ++ fs ++ [(GET_STATUS, 0)] ∧
    (w.writes.drop fs.length).headD 2 = 2 ∧
    w'.writes = w.writes.drop (fs.length + 1) ∧
    w.reads = c ++ (idle i ++ ReadRes.byte GET_STATUS ::
      (idle j ++ ReadRes.byte s :: w'.reads)) ∧
    s.val.testBit 3 = false ∧ w'.closed = true

/-- A step of `main` that either goes on, having sent benign frames `fs` only
and read `c` from the link, or returns `LO8_NO_TAPE` from a tape check. -/
def StepOk (w : World) (r : Option Int) (w' : World) : Prop :=
  (r = none ∧ ∃ (fs : List (Byte × Byte)) (c : List ReadRes),
    Benign fs ∧ w'.sent = w.sent ++ fs ∧ w'.writes = w.writes.drop fs.length ∧
    w.reads = c ++ w'.reads) ∨
  (r = some LO8_NO_TAPE ∧ ∃ fs, Benign fs ∧ NoTapeExit w w' fs)

/-! ## Bytes of an `int` -/

theorem byte0_packInt (a b : Byte) (j : Nat) : byte0 (packInt a b j) = a := by
  apply Fin.ext
  have ha := a.isLt
  have hb := b.isLt
  simp only [byte0, packInt, toInt32]
  split <;> omega

theorem byte1_packInt (a b : Byte) (j : Nat) : byte1 (packInt a b j) = b := by
  apply Fin.ext
  have ha := a.isLt
  have hb := b.isLt
  simp only [byte1, packInt, toInt32]
  split <;> omega

theorem byte0_neg_one : byte0 (-1) = 255 := by decide

theorem byte1_neg_one : byte1 (-1) = 255 := by decide

/-! ## `readLo8` on a scripted link -/

theorem readLo8Loop_idle (k : Nat) : ∀ (fuel i : Nat) (b0 b1 : Byte) (w : World) (rs : List ReadRes),
    i ≠ 2 → w.reads = idle k ++ rs →
    readLo8Loop (k + fuel) i b0 b1 w = readLo8Loop fuel i b0 b1 { w with reads := rs } := by
  induction k with
  | zero =>
    intro fuel i b0 b1 w rs _ h
    simp only [idle, List.replicate, List.nil_append] at h
    simp [← h]
  | succ k ih =>
    intro fuel i b0 b1 w rs hi h
    have h1 : w.reads = ReadRes.zero :: (idle k ++ rs) := by
      simpa [idle, List.replicate_succ] using h
    rw [show k + 1 + fuel = (k + fuel) + 1 by omega]
    simp only [readLo8Loop, sysRead, h1, if_neg hi]
    exact ih fuel i b0 b1 _ rs hi rfl

theorem readLo8_frame (i j fuel : Nat) (a b : Byte) (w : World) (rest : List ReadRes)
    (h : w.reads = idle i ++ ReadRes.byte a :: (idle j ++ ReadRes.byte b :: rest))
    (hf : i + j + 2 ≤ fuel) :
    readLo8 fuel w = some (packInt a b w.junk, { w with reads := rest }) := by
  obtain ⟨m, rfl⟩ : ∃ m, fuel = i + (1 + (j + (1 + m))) := ⟨fuel - (i + j + 2), by omega⟩
  unfold readLo8
  rw [readLo8Loop_idle i _ 0 0 0 w _ (by decide) h]
  rw [show 1 + (j + (1 + m)) = (j + (1 + m)) + 1 by omega]
  simp only [readLo8Loop, sysRead]
  simp only [show (0 : Nat) + 1 ≠ 2 by decide, if_false, if_true]
  rw [readLo8Loop_idle j _ 1 a 0 _ (ReadRes.byte b :: rest) (by decide) rfl]
  rw [show 1 + m = m + 1 by omega]
  simp [readLo8Loop, sysRead]

theorem readLo8_err0 (i fuel : Nat) (w : World) (rest : List ReadRes)
    (h : w.reads = idle i ++ ReadRes.err :: rest) (hf : i + 1 ≤ fuel) :
    readLo8 fuel w = some (-1, { w with reads := rest }) := by
  obtain ⟨m, rfl⟩ : ∃ m, fuel = i + (m + 1) := ⟨fuel - (i + 1), by omega⟩
  unfold readLo8
  rw [readLo8Loop_idle i _ 0 0 0 w _ (by decide) h]
  simp [readLo8Loop, sysRead]

theorem readLo8_err1 (i j fuel : Nat) (a : Byte) (w : World) (rest : List ReadRes)
    (h : w.reads = idle i ++ ReadRes.byte a :: (idle j ++ ReadRes.err :: rest))
    (hf : i + j + 2 ≤ fuel) :
    readLo8 fuel w = some (-1, { w with reads := rest }) := by
  obtain ⟨m, rfl⟩ : ∃ m, fuel = i + (1 + (j + (1 + m))) := ⟨fuel - (i + j + 2), by omega⟩
  unfold readLo8
  rw [readLo8Loop_idle i _ 0 0 0 w _ (by decide) h]
  rw [show 1 + (j + (1 + m)) = (j + (1 + m)) + 1 by omega]
  simp only [readLo8Loop, sysRead]
  simp only [show (0 : Nat) + 1 ≠ 2 by decide, if_false, if_true]
  rw [readLo8Loop_idle j _ 1 a 0 _ (ReadRes.err :: rest) (by decide) rfl]
  rw [show 1 + m = m + 1 by omega]
  simp [readLo8Loop, sysRead]

/-- At the end of the script `read` returns 0 on every call: the loop of
`readLo8` never leaves, whatever the fuel. -/
theorem readLo8Loop_eof (fuel : Nat) : ∀ (i : Nat) (b0 b1 : Byte) (w : World),
    i ≠ 2 → w.reads = [] → readLo8Loop fuel i b0 b1 w = none := by
  induction fuel with
  | zero => intro i b0 b1 w _ _; rfl
  | succ n ih =>
    intro i b0 b1 w hi h
    simp only [readLo8Loop, sysRead, h, if_neg hi]
    exact ih i b0 b1 w hi h

theorem readLo8_eof0 (k fuel : Nat) (w : World) (h : w.reads = idle k) :
    readLo8 fuel w = none := by
  unfold readLo8
  by_cases hk : k ≤ fuel
  · obtain ⟨m, rfl⟩ : ∃ m, fuel = k + m := ⟨fuel - k, by omega⟩
    rw [readLo8Loop_idle k m 0 0 0 w [] (by decide) (by simpa using h)]
    exact readLo8Loop_eof m 0 0 0 _ (by decide) rfl
  · have : ∀ (f : Nat) (w : World) (k : Nat), f < k → w.reads = idle k →
        readLo8Loop f 0 0 0 w = none := by
      intro f
      induction f with
      | zero => intros; rfl
      | succ n ih =>
        intro w k hlt hr
        obtain ⟨k', rfl⟩ : ∃ k', k = k' + 1 := ⟨k - 1, by omega⟩
        have h1 : w.reads = ReadRes.zero :: idle k' := by
          simpa [idle, List.replicate_succ] using hr
        simp only [readLo8Loop, sysRead, h1]
        simp only [show (0 : Nat) ≠ 2 by decide, if_false]
        exact ih _ k' (by omega) rfl
    exact this fuel w k (by omega) h

/-! ## `sendLo8` on a scripted link -/

theorem sendLo8_writeFails (fuel : Nat) (cmd data : Byte) (w : World)
    (hw : w.writes.headD 2 ≠ 2) :
    sendLo8 fuel cmd data w
      = some (-1, { w with writes := w.writes.tail, sent := w.sent ++ [(cmd, data)] }) := by
  simp only [sendLo8, sysWrite, ne_eq, hw, not_false_eq_true, if_true]

theorem sendLo8_frame (i j fuel : Nat) (cmd data a b : Byte) (w : World) (rest : List ReadRes)
    (hw : w.writes.headD 2 = 2)
    (h : w.reads = idle i ++ ReadRes.byte a :: (idle j ++ ReadRes.byte b :: rest))
    (hf : i + j + 2 ≤ fuel) :
    sendLo8 fuel cmd data w
      = some (if a = cmd then (b.val : Int) else -1,
          { w with writes := w.writes.tail, reads := rest, sent := w.sent ++ [(cmd, data)] }) := by
  have hr := readLo8_frame i j fuel a b
    { w with writes := w.writes.tail, sent := w.sent ++ [(cmd, data)] } rest h hf
  simp only [sendLo8, sysWrite, hw, hr, byte0_packInt, byte1_packInt]
  by_cases hc : a = cmd <;> simp [hc]

/-- One exchange on a link that accepts every write and answers `[a][b]`. -/
theorem sendLo8_ok (fuel : Nat) (cmd data a b : Byte) (w : World) (rest : List ReadRes)
    (hw : w.writes = []) (h : w.reads = frame a b ++ rest) (hf : 2 ≤ fuel) :
    sendLo8 fuel cmd data w
      = some (if a = cmd then (b.val : Int) else -1,
          { w with reads := rest, sent := w.sent ++ [(cmd, data)] }) := by
  have := sendLo8_frame 0 0 fuel cmd data a b w rest (by simp [hw]) (by simpa [idle, frame] using h)
    (by omega)
  rw [this]
  simp [hw]

/-! ## What an exchange leaves in the trace, on any link -/

theorem readLo8Loop_sent (fuel : Nat) : ∀ (i : Nat) (b0 b1 : Byte) (w w' : World) (v : Int),
    readLo8Loop fuel i b0 b1 w = some (v, w') → w'.sent = w.sent := by
  induction fuel with
  | zero => intro i b0 b1 w w' v h; simp [readLo8Loop] at h
  | succ n ih =>
    intro i b0 b1 w w' v h
    unfold readLo8Loop at h
    cases hr : w.reads with
    | nil =>
      simp only [sysRead, hr] at h
      split at h
      · simp only [Option.some.injEq, Prod.mk.injEq] at h
        rw [← h.2]
      · exact ih _ _ _ _ _ _ h
    | cons r rest =>
      cases r with
      | err =>
        simp only [sysRead, hr, Option.some.injEq, Prod.mk.injEq] at h
        rw [← h.2]
      | zero =>
        simp only [sysRead, hr] at h
        split at h
        · simp only [Option.some.injEq, Prod.mk.injEq] at h
          rw [← h.2]
        · simpa using ih _ _ _ _ _ _ h
      | byte b =>
        simp only [sysRead, hr] at h
        split at h
        · simp only [Option.some.injEq, Prod.mk.injEq] at h
          rw [← h.2]
        · simpa using ih _ _ _ _ _ _ h

theorem readLo8_sent (fuel : Nat) (w w' : World) (v : Int)
    (h : readLo8 fuel w = some (v, w')) : w'.sent = w.sent :=
  readLo8Loop_sent fuel 0 0 0 w w' v h

theorem sendLo8_sent (fuel : Nat) (cmd data : Byte) (w w' : World) (r : Int)
    (h : sendLo8 fuel cmd data w = some (r, w')) : w'.sent = w.sent ++ [(cmd, data)] := by
  simp only [sendLo8, sysWrite] at h
  split at h
  · simp only [Option.some.injEq, Prod.mk.injEq] at h
    rw [← h.2]
  · cases hr : readLo8 fuel { w with writes := w.writes.tail, sent := w.sent ++ [(cmd, data)] } with
    | none => simp [hr] at h
    | some p =>
      obtain ⟨v, w2⟩ := p
      have hs := readLo8_sent _ _ _ _ hr
      simp only [hr] at h
      split at h <;>
        (simp only [Option.some.injEq, Prod.mk.injEq] at h; rw [← h.2, hs])

/-! ## Status bits -/

theorem bitAnd_byte (s : Byte) (mask : Nat) :
    bitAnd (s.val : Int) mask = ((s.val &&& mask : Nat) : Int) := by
  have hs := s.isLt
  have : ((s.val : Int) % 4294967296).toNat = s.val := by omega
  simp only [bitAnd, this]

theorem bitAnd_track (s : Byte) : bitAnd (s.val : Int) 0x03 = ((s.val % 4 : Nat) : Int) := by
  rw [bitAnd_byte]
  have h := Nat.and_pow_two_sub_one_eq_mod s.val 2
  norm_num at h
  rw [h]

theorem bitAnd_tape (s : Byte) : bitAnd (s.val : Int) 0x08 = 0 ↔ s.val.testBit 3 = false := by
  rw [bitAnd_byte]
  have h := Nat.and_two_pow s.val 3
  norm_num at h
  rw [h]
  cases s.val.testBit 3 <;> simp

theorem bitAnd_eot (s : Byte) : bitAnd (s.val : Int) 0x04 = 0 ↔ s.val.testBit 2 = false := by
  rw [bitAnd_byte]
  have h := Nat.and_two_pow s.val 2
  norm_num at h
  rw [h]
  cases s.val.testBit 2 <;> simp

theorem bitAnd_neg_one_tape : bitAnd (-1) 0x08 = 8 := by decide

/-- C1. Echo check of `sendLo8`: when the link takes the request and delivers
the 2-byte response `[r0][r1]` (zero-byte reads may precede either byte),
`sendLo8` returns -1 if `r0` differs from the command byte and exactly `r1`
if it equals it; -1 is the value of no data byte. -/
theorem sendLo8_echo_check (fuel i j : Nat) (cmd data r0 r1 : Byte) (w : World)
    (rest : List ReadRes)
    (hw : w.writes.headD 2 = 2)
    (hr : w.reads = idle i ++ ReadRes.byte r0 :: (idle j ++ ReadRes.byte r1 :: rest))
    (hf : i + j + 2 ≤ fuel) :
    (r0 ≠ cmd → sendLo8 fuel cmd data w = some (-1,
        { w with writes := w.writes.tail, reads := rest, sent := w.sent ++ [(cmd, data)] })) ∧
    (r0 = cmd → sendLo8 fuel cmd data w = some ((r1.val : Int),
        { w with writes := w.writes.tail, reads := rest, sent := w.sent ++ [(cmd, data)] })) ∧
    (∀ d : Byte, (-1 : Int) ≠ (d.val : Int)) := by
  have h := sendLo8_frame i j fuel cmd data r0 r1 w rest hw hr hf
  refine ⟨fun hne => ?_, fun heq => ?_, fun d => by omega⟩
  · rw [h, if_neg hne]
  · rw [h, if_pos heq]

/-- C1, at a response that carries the opcode `DATA` to a `START_MOTOR`
request, and at one that echoes it. -/
theorem sendLo8_echo_check_witness :
    sendLo8 2 START_MOTOR 0 (World.init (frame DATA 0x41) [])
      = some (-1, { World.init [] [] with sent := [(START_MOTOR, 0)] }) ∧
    sendLo8 2 START_MOTOR 0 (World.init (frame START_MOTOR 0x41) [])
      = some (0x41, { World.init [] [] with sent := [(START_MOTOR, 0)] }) :=
  ⟨(sendLo8_echo_check 2 0 0 START_MOTOR 0 DATA 0x41 (World.init (frame DATA 0x41) []) []
      rfl rfl (by decide)).1 (by decide),
   (sendLo8_echo_check 2 0 0 START_MOTOR 0 START_MOTOR 0x41
      (World.init (frame START_MOTOR 0x41) []) [] rfl rfl (by decide)).2.1 rfl⟩

/-- C8. Frame codec round trip: `sendLo8` hands `write` the two bytes
`[cmd][data]` in that order; the `int` that `readLo8` packs from a frame
`[cmd][data]` has `cmd` as its byte 0 and `data` as its byte 1, whatever lies
in its upper half; and a request that comes back unchanged yields `data`. -/
theorem frame_codec_round_trip (cmd data : Byte) (junk fuel : Nat) (w : World)
    (rest : List ReadRes) :
    (sysWrite cmd data w).2.sent = w.sent ++ [(cmd, data)] ∧
    readLo8 (fuel + 2) { w with reads := frame cmd data ++ rest }
      = some (packInt cmd data w.junk, { w with reads := rest }) ∧
    (byte0 (packInt cmd data junk), byte1 (packInt cmd data junk)) = (cmd, data) ∧
    sendLo8 (fuel + 2) cmd data { w with writes := [], reads := frame cmd data ++ rest }
      = some ((data.val : Int),
          { w with writes := [], reads := rest, sent := w.sent ++ [(cmd, data)] }) := by
  refine ⟨rfl, ?_, ?_, ?_⟩
  · exact readLo8_frame 0 0 (fuel + 2) cmd data _ rest (by simp [idle, frame]) (by omega)
  · rw [byte0_packInt, byte1_packInt]
  · have := sendLo8_ok (fuel + 2) cmd data cmd data
      { w with writes := [], reads := frame cmd data ++ rest } rest rfl rfl (by omega)
    simpa using this

/-- C9. Status byte decoding: on a `GET_STATUS` exchange that succeeds with
status byte `s`, `getTrack` returns bits 0-1 of `s` (a value in 0..3),
`getTapeIn` returns 0 iff bit 3 of `s` is clear, `getEOT` returns 0 iff bit 2
of `s` is clear; the first two send the data byte 0, `getEOT` sends 1. -/
theorem status_byte_decoding (fuel : Nat) (s : Byte) (w : World) (rest : List ReadRes)
    (hw : w.writes = []) (hr : w.reads = frame GET_STATUS s ++ rest) (hf : 2 ≤ fuel) :
    getTrack fuel w = some (((s.val % 4 : Nat) : Int),
        { w with reads := rest, sent := w.sent ++ [(GET_STATUS, 0)] }) ∧
    s.val % 4 ≤ 3 ∧
    getTapeIn fuel w = some (bitAnd (s.val : Int) 0x08,
        { w with reads := rest, sent := w.sent ++ [(GET_STATUS, 0)] }) ∧
    (bitAnd (s.val : Int) 0x08 = 0 ↔ s.val.testBit 3 = false) ∧
    getEOT fuel w = some (bitAnd (s.val : Int) 0x04,
        { w with reads := rest, sent := w.sent ++ [(GET_STATUS, 1)] }) ∧
    (bitAnd (s.val : Int) 0x04 = 0 ↔ s.val.testBit 2 = false) := by
  have h0 := sendLo8_ok fuel GET_STATUS 0 GET_STATUS s w rest hw hr hf
  have h1 := sendLo8_ok fuel GET_STATUS 1 GET_STATUS s w rest hw hr hf
  rw [if_pos rfl] at h0 h1
  refine ⟨?_, by omega, ?_, bitAnd_tape s, ?_, bitAnd_eot s⟩
  · simp only [getTrack, h0, Option.map_some', bitAnd_track]
  · simp only [getTapeIn, h0, Option.map_some']
  · simp only [getEOT, h1, Option.map_some']

/-- C9, at the status byte `0x0d` (track 1, end-of-tape latch set, tape present). -/
theorem status_byte_decoding_witness :
    getTrack 2 (World.init (frame GET_STATUS 0x0d) [])
      = some (1, { World.init [] [] with sent := [(GET_STATUS, 0)] }) ∧
    getTapeIn 2 (World.init (frame GET_STATUS 0x0d) [])
      = some (8, { World.init [] [] with sent := [(GET_STATUS, 0)] }) ∧
    getEOT 2 (World.init (frame GET_STATUS 0x0d) [])
      = some (4, { World.init [] [] with sent := [(GET_STATUS, 1)] }) :=
  have h := status_byte_decoding 2 0x0d (World.init (frame GET_STATUS 0x0d) []) [] rfl rfl
    (by decide)
  ⟨h.1, h.2.2.1, h.2.2.2.2.1⟩

theorem sendLo8_eof (k fuel : Nat) (cmd data : Byte) (w : World)
    (hw : w.writes.headD 2 = 2) (h : w.reads = idle k) :
    sendLo8 fuel cmd data w = none := by
  have hr := readLo8_eof0 k fuel
    { w with writes := w.writes.tail, sent := w.sent ++ [(cmd, data)] } h
  simp only [sendLo8, sysWrite, hw, hr]
  simp

/-- C6, as stated, fails twice.  At end of file `read` returns 0, which
`readLo8` does not take for a failure: it calls `read` again, so neither
`readLo8` nor `sendLo8` returns, whatever the fuel.  And for the command byte
255 a read error is not told from an echo: `readLo8` returns -1, whose byte 0
is 255, and `sendLo8` returns the data value 255. -/
theorem link_failure_counterexample :
    (¬ ∃ fuel r, readLo8 fuel (World.init [] []) = some r) ∧
    (¬ ∃ fuel r, sendLo8 fuel GET_STATUS 0 (World.init [] []) = some r) ∧
    sendLo8 1 255 0 (World.init [ReadRes.err] [])
      = some (255, { World.init [] [] with sent := [(255, 0)] }) := by
  refine ⟨?_, ?_, by decide⟩
  · rintro ⟨fuel, r, h⟩
    rw [readLo8_eof0 0 fuel _ rfl] at h
    exact Option.noConfusion h
  · rintro ⟨fuel, r, h⟩
    rw [sendLo8_eof 0 fuel GET_STATUS 0 (World.init [] []) rfl rfl] at h
    exact Option.noConfusion h

/-- C6, amended.  For every command byte other than 255 and every data
byte: if a `read` call reports an error before 2 bytes have accumulated
(zero-byte reads before it are retried), `readLo8` returns -1 and `sendLo8`
returns -1.  A zero-byte read is no failure: while the link delivers
nothing, `readLo8` and with it `sendLo8` do not return. -/
theorem link_error_returns_minus_one (fuel i j : Nat) (cmd data a : Byte) (w : World)
    (rest : List ReadRes)
    (hc : cmd ≠ 255) (hw : w.writes.headD 2 = 2)
    (hr : w.reads = idle i ++ ReadRes.err :: rest ∨
      w.reads = idle i ++ ReadRes.byte a :: (idle j ++ ReadRes.err :: rest))
    (hf : i + j + 2 ≤ fuel) :
    readLo8 fuel w = some (-1, { w with reads := rest }) ∧
    sendLo8 fuel cmd data w = some (-1,
      { w with writes := w.writes.tail, reads := rest, sent := w.sent ++ [(cmd, data)] }) ∧
    (∀ (k f : Nat) (w0 : World), w0.reads = idle k →
      readLo8 f w0 = none ∧ (w0.writes.headD 2 = 2 → sendLo8 f cmd data w0 = none)) := by
  have key : ∀ w1 : World, w1.reads = w.reads →
      readLo8 fuel w1 = some (-1, { w1 with reads := rest }) := by
    intro w1 h1
    rcases hr with h | h
    · exact readLo8_err0 i fuel w1 rest (h1.trans h) (by omega)
    · exact readLo8_err1 i j fuel a w1 rest (h1.trans h) hf
  refine ⟨key w rfl, ?_, fun k f w0 h0 => ⟨readLo8_eof0 k f w0 h0, fun hw0 =>
    sendLo8_eof k f cmd data w0 hw0 h0⟩⟩
  have h2 := key { w with writes := w.writes.tail, sent := w.sent ++ [(cmd, data)] } rfl
  have hb : byte0 (-1) ≠ cmd := by
    rw [byte0_neg_one]; exact fun h => hc h.symm
  simp only [sendLo8, sysWrite, hw, h2]
  simp [hb]

/-- C6 amended, at a link that delivers one byte and then fails, during a
`WRITE` of the byte `0x10`. -/
theorem link_error_returns_minus_one_witness :
    readLo8 2 (World.init [ReadRes.byte 5, ReadRes.err] []) = some (-1, World.init [] []) ∧
    sendLo8 2 WRITE 0x10 (World.init [ReadRes.byte 5, ReadRes.err] [])
      = some (-1, { World.init [] [] with sent := [(WRITE, 0x10)] }) :=
  have h := link_error_returns_minus_one 2 0 0 WRITE 0x10 5
    (World.init [ReadRes.byte 5, ReadRes.err] []) [] (by decide) rfl (Or.inr rfl) (by decide)
  ⟨h.1, h.2.1⟩

/-! ## The signal -/

theorem pollSignal_none (w : World) (h : w.sigint = none) : pollSignal w = w := by
  simp [pollSignal, h]

theorem pollSignal_succ (w : World) (k : Nat) (h : w.sigint = some (k + 1)) :
    pollSignal w = { w with sigint := some k } := by
  simp [pollSignal, h]

theorem pollSignal_zero (w : World) (h : w.sigint = some 0) :
    pollSignal w = { w with sigint := none, interrupt := true } := by
  simp [pollSignal, h, int_handler]

/-- While the signal is not due, polling leaves everything but its countdown. -/
theorem pollSignal_pending (w : World) (h : ∀ k, w.sigint = some k → 0 < k) :
    pollSignal w = { w with sigint := w.sigint.map (· - 1) } := by
  cases hs : w.sigint with
  | none => rw [pollSignal_none w hs]; cases w; simp_all
  | some k =>
    cases k with
    | zero => exact absurd (h 0 hs) (by decide)
    | succ k => rw [pollSignal_succ w k hs]; simp

/-! ## The read loop -/

/-- One iteration of the read loop on a frame that is not `DATA_EOT`. -/
theorem readLoop_step (fuel n : Nat) (f : Byte × Byte) (w : World) (rest : List ReadRes)
    (hf : 2 ≤ fuel) (hi : (pollSignal w).interrupt = false) (hop : f.1 ≠ DATA_EOT)
    (hr : w.reads = frame f.1 f.2 ++ rest) :
    readLoop fuel (n + 1) false w = readLoop fuel n false
      { pollSignal w with reads := rest,
                          stdout := w.stdout ++ (dataBytes [f]).map OutEv.putc } := by
  have hpr : (pollSignal w).reads = idle 0 ++ ReadRes.byte f.1 :: (idle 0 ++ ReadRes.byte f.2 :: rest) := by
    have : (pollSignal w).reads = w.reads := by
      unfold pollSignal int_handler; split <;> simp
    rw [this, hr]; rfl
  have hps : (pollSignal w).stdout = w.stdout := by
    unfold pollSignal int_handler; split <;> simp
  have h := readLo8_frame 0 0 fuel f.1 f.2 (pollSignal w) rest hpr (by omega)
  simp only [readLoop, hi, h, byte0_packInt, byte1_packInt, if_neg hop]
  by_cases hd : f.1 = DATA
  · simp [hd, putc, dataBytes, hps]
  · simp [hd, dataBytes, hps]

/-- The read loop over frames none of which is `DATA_EOT`, while no signal is due. -/
theorem readLoop_frames (fuel : Nat) (hf : 2 ≤ fuel) : ∀ (pre : List (Byte × Byte)) (n : Nat)
    (w : World) (rest : List ReadRes),
    (∀ f ∈ pre, f.1 ≠ DATA_EOT) → w.reads = frames pre ++ rest → w.interrupt = false →
    (∀ k, w.sigint = some k → pre.length ≤ k) →
    readLoop fuel (pre.length + n) false w = readLoop fuel n false
      { w with reads := rest, sigint := w.sigint.map (· - pre.length),
               stdout := w.stdout ++ (dataBytes pre).map OutEv.putc } := by
  intro pre
  induction pre with
  | nil =>
    intro n w rest _ hr _ _
    have : w = { w with reads := rest, sigint := w.sigint.map (· - ([] : List (Byte × Byte)).length),
                        stdout := w.stdout ++ (dataBytes []).map OutEv.putc } := by
      cases w
      simp only [frames, List.nil_append] at hr
      simp [hr, dataBytes]
    rw [List.length_nil, Nat.zero_add]
    exact congrArg _ this
  | cons f fs ih =>
    intro n w rest hpre hr hi hk
    have hk0 : ∀ k, w.sigint = some k → 0 < k := fun k h => by
      have := hk k h; simp only [List.length_cons] at this; omega
    have hp := pollSignal_pending w hk0
    rw [show (f :: fs).length + n = (fs.length + n) + 1 by simp only [List.length_cons]; omega]
    rw [readLoop_step fuel _ f w (frames fs ++ rest) hf (by rw [hp]; exact hi)
      (hpre f (List.mem_cons_self _ _)) (by simp [hr, frames, List.append_assoc])]
    rw [ih n _ rest (fun g hg => hpre g (List.mem_cons_of_mem _ hg)) (by rw [hp])
      (by rw [hp]; exact hi) ?_]
    · congr 1
      rw [hp]
      have hd : dataBytes (f :: fs) = dataBytes [f] ++ dataBytes fs := by
        simp [dataBytes, List.filter_cons]
        split <;> simp
      cases hs : w.sigint <;>
        simp [hd, List.map_append, List.append_assoc, Nat.sub_sub, Nat.add_comm]
    · intro k h
      rw [hp] at h
      cases hs : w.sigint with
      | none => simp [hs] at h
      | some k0 =>
        have := hk k0 hs
        simp only [hs, Option.map_some', Option.some.injEq] at h
        simp only [List.length_cons] at this
        omega

/-- The iteration that reads `DATA_EOT`, and the evaluation of the loop
condition after it, when no signal arrives. -/
theorem readLoop_eot (fuel n : Nat) (x : Byte) (w : World) (rest : List ReadRes)
    (hf : 2 ≤ fuel) (hi : w.interrupt = false) (hs : w.sigint = none)
    (hr : w.reads = frame DATA_EOT x ++ rest) :
    readLoop fuel (n + 2) false w
      = some { w with reads := rest, stdout := w.stdout ++ [OutEv.putc x] } := by
  have hp := pollSignal_none w hs
  have h := readLo8_frame 0 0 fuel DATA_EOT x w rest (by simpa [idle, frame] using hr) (by omega)
  simp only [readLoop, hp, hi, h, byte0_packInt, byte1_packInt]
  simp [putc, pollSignal, hs]

/-- The evaluation of the loop condition at which the signal is due. -/
theorem readLoop_cancel (fuel n : Nat) (eot : Bool) (w : World) (hs : w.sigint = some 0) :
    readLoop fuel (n + 1) eot w = some { w with sigint := none, interrupt := true } := by
  simp [readLoop, pollSignal_zero w hs]

/-! ## The wrappers on a link that answers -/

/-- What an exchange leaves behind, whatever frame `[a][b]` answers it. -/
theorem sendLo8_world (fuel : Nat) (cmd data a b : Byte) (w : World) (rest : List ReadRes)
    (hw : w.writes = []) (h : w.reads = frame a b ++ rest) (hf : 2 ≤ fuel) :
    (sendLo8 fuel cmd data w).map (fun r => r.2)
      = some { w with reads := rest, sent := w.sent ++ [(cmd, data)] } := by
  rw [sendLo8_ok fuel cmd data a b w rest hw h hf]; rfl

theorem tapeCheck_present (fuel : Nat) (s : Byte) (w : World) (rest : List ReadRes)
    (hw : w.writes = []) (hr : w.reads = frame GET_STATUS s ++ rest) (hf : 2 ≤ fuel)
    (hs : s.val.testBit 3 = true) :
    tapeCheck fuel w
      = some (none, { w with reads := rest, sent := w.sent ++ [(GET_STATUS, 0)] }) := by
  have h0 := sendLo8_ok fuel GET_STATUS 0 GET_STATUS s w rest hw hr hf
  rw [if_pos rfl] at h0
  have hne : bitAnd (s.val : Int) 0x08 ≠ 0 := fun h => by
    rw [(bitAnd_tape s).1 h] at hs; exact Bool.noConfusion hs
  simp only [tapeCheck, getTapeIn, h0, Option.map_some', if_neg hne]

theorem tapeCheck_absent (fuel : Nat) (s : Byte) (w : World) (rest : List ReadRes)
    (hw : w.writes = []) (hr : w.reads = frame GET_STATUS s ++ rest) (hf : 2 ≤ fuel)
    (hs : s.val.testBit 3 = false) :
    tapeCheck fuel w = some (some LO8_NO_TAPE,
      close { w with reads := rest, sent := w.sent ++ [(GET_STATUS, 0)] }) := by
  have h0 := sendLo8_ok fuel GET_STATUS 0 GET_STATUS s w rest hw hr hf
  rw [if_pos rfl] at h0
  simp only [tapeCheck, getTapeIn, h0, Option.map_some', if_pos ((bitAnd_tape s).2 hs)]

/-! ## C2: what the read loop delivers -/

/-- The read loop on frames `pre` without `DATA_EOT` followed by a frame
`DATA_EOT x`, when no signal arrives: it leaves after that frame. -/
theorem readLoop_spec (fuel n : Nat) (x : Byte) (pre : List (Byte × Byte)) (w : World)
    (post : List ReadRes)
    (hf : 2 ≤ fuel) (hn : pre.length + 2 ≤ n) (hsig : w.sigint = none)
    (hi : w.interrupt = false) (hpre : ∀ f ∈ pre, f.1 ≠ DATA_EOT)
    (hr : w.reads = frames pre ++ (frame DATA_EOT x ++ post)) :
    readLoop fuel n false w = some
      { w with reads := post, stdout := w.stdout ++ (dataBytes pre ++ [x]).map OutEv.putc } := by
  obtain ⟨m, rfl⟩ : ∃ m, n = pre.length + (m + 2) := ⟨n - (pre.length + 2), by omega⟩
  obtain ⟨openFails, reads, writes, junk, stdin, stdinEof, sigint, interrupt, opened, closed,
    speed, sent, stdout⟩ := w
  simp only at hsig hi hr
  subst hsig hi hr
  rw [readLoop_frames fuel hf pre (m + 2) _ (frame DATA_EOT x ++ post) hpre rfl rfl (by simp)]
  rw [readLoop_eot fuel m x _ post hf rfl rfl rfl]
  simp

/-- The read request on a drive with a tape, frames `pre` without `DATA_EOT`,
a frame `DATA_EOT x` and no signal: it returns after one `STOP_MOTOR`. -/
theorem readTask_eot (fuel : Nat) (v : Vars) (w : World) (s x a b c d : Byte)
    (pre : List (Byte × Byte)) (rest : List ReadRes)
    (hv : v.readRequested = true) (hw : w.writes = []) (hsig : w.sigint = none)
    (hi : w.interrupt = false) (hs : s.val.testBit 3 = true)
    (hpre : ∀ f ∈ pre, f.1 ≠ DATA_EOT)
    (hr : w.reads = frame GET_STATUS s ++ (frame a b ++ (frames pre ++
      (frame DATA_EOT x ++ (frame c d ++ rest)))))
    (hf : pre.length + 2 ≤ fuel) :
    readTask fuel v w = some (none,
      { w with reads := rest,
               sent := w.sent ++ [(GET_STATUS, 0), (START_MOTOR, 0), (STOP_MOTOR, 0)],
               stdout := w.stdout ++ (dataBytes pre ++ [x]).map OutEv.putc }) := by
  have hf2 : 2 ≤ fuel := by omega
  obtain ⟨openFails, reads, writes, junk, stdin, stdinEof, sigint, interrupt, opened, closed,
    speed, sent, stdout⟩ := w
  simp only at hw hsig hi hr
  subst hw hsig hi hr
  have h1 := tapeCheck_present fuel s
    ⟨openFails, frame GET_STATUS s ++ (frame a b ++ (frames pre ++
        (frame DATA_EOT x ++ (frame c d ++ rest)))), [],
      junk, stdin, stdinEof, none, false, opened, closed, speed, sent, stdout⟩
    _ rfl rfl hf2 hs
  have h2 := sendLo8_world fuel START_MOTOR 0 a b
    ⟨openFails, frame a b ++ (frames pre ++ (frame DATA_EOT x ++ (frame c d ++ rest))), [],
      junk, stdin, stdinEof, none, false, opened, closed, speed,
      sent ++ [(GET_STATUS, 0)], stdout⟩ _ rfl rfl hf2
  have h3 := readLoop_spec fuel fuel x pre
    ⟨openFails, frames pre ++ (frame DATA_EOT x ++ (frame c d ++ rest)), [],
      junk, stdin, stdinEof, none, false, opened, closed, speed,
      sent ++ [(GET_STATUS, 0)] ++ [(START_MOTOR, 0)], stdout⟩
    (frame c d ++ rest) hf2 hf rfl rfl hpre rfl
  have h5 := sendLo8_world fuel STOP_MOTOR 0 c d
    ⟨openFails, frame c d ++ rest, [],
      junk, stdin, stdinEof, none, false, opened, closed, speed,
      sent ++ [(GET_STATUS, 0)] ++ [(START_MOTOR, 0)],
      stdout ++ (dataBytes pre ++ [x]).map OutEv.putc⟩ rest rfl rfl hf2
  simp only [Option.map_some'] at h1 h2 h3 h5
  simp only [readTask, hv, if_true, h1, andThen, startMotor, h2, Option.bind, h3,
    stopMotor, h5, noReturn, Option.map_some']
  simp

/-- C2. Read loop output: with a tape present (bit 3 of the status byte set)
and no cancellation, for every sequence of frames `pre` without `DATA_EOT`
that is followed by a frame `DATA_EOT x`, the read request terminates; the
bytes it writes to standard output are the data bytes of the `DATA` frames
of `pre`, in order, then `x` (frames of any other opcode deliver nothing and
do not end the loop); after `DATA_EOT` it reads the response to `STOP_MOTOR`
and nothing else (`rest` is untouched); the frames it sends are `GET_STATUS`,
`START_MOTOR` and one `STOP_MOTOR`.  The responses to `START_MOTOR` and
`STOP_MOTOR` may be any frames.  The loop itself, whatever follows the
`DATA_EOT` frame on the link, leaves right after that frame (`post` is
untouched). -/
theorem read_loop_output (fuel : Nat) (v : Vars) (w : World) (s x a b c d : Byte)
    (pre : List (Byte × Byte)) (rest : List ReadRes)
    (hv : v.readRequested = true) (hw : w.writes = []) (hsig : w.sigint = none)
    (hi : w.interrupt = false) (hs : s.val.testBit 3 = true)
    (hpre : ∀ f ∈ pre, f.1 ≠ DATA_EOT)
    (hr : w.reads = frame GET_STATUS s ++ (frame a b ++ (frames pre ++
      (frame DATA_EOT x ++ (frame c d ++ rest)))))
    (hf : pre.length + 2 ≤ fuel) :
    readTask fuel v w = some (none,
      { w with reads := rest,
               sent := w.sent ++ [(GET_STATUS, 0), (START_MOTOR, 0), (STOP_MOTOR, 0)],
               stdout := w.stdout ++ (dataBytes pre ++ [x]).map OutEv.putc }) ∧
    (∀ (wl : World) (post : List ReadRes), wl.sigint = none → wl.interrupt = false →
      wl.reads = frames pre ++ (frame DATA_EOT x ++ post) →
      readLoop fuel fuel false wl = some
        { wl with reads := post,
                  stdout := wl.stdout ++ (dataBytes pre ++ [x]).map OutEv.putc }) := by
  exact ⟨readTask_eot fuel v w s x a b c d pre rest hv hw hsig hi hs hpre hr hf,
    fun wl post h1 h2 h3 =>
      readLoop_spec fuel fuel x pre wl post (by omega) hf h1 h2 hpre h3⟩

/-- C2, at the scripted device of the specification: `DATA 0x41`, `DATA 0x42`,
`DATA_EOT 0x43` deliver exactly `0x41, 0x42, 0x43`. -/
theorem read_loop_output_witness :
    readTask 4 { Vars.defaults with readRequested := true }
      (World.init (frame GET_STATUS 0x08 ++ (frame START_MOTOR 1 ++
        (frames [(DATA, 0x41), (DATA, 0x42)] ++ (frame DATA_EOT 0x43 ++
        (frame STOP_MOTOR 1 ++ []))))) [])
    = some (none, { World.init [] [] with
        sent := [(GET_STATUS, 0), (START_MOTOR, 0), (STOP_MOTOR, 0)],
        stdout := [OutEv.putc 0x41, OutEv.putc 0x42, OutEv.putc 0x43] }) := by
  have h := read_loop_output 4 { Vars.defaults with readRequested := true }
    (World.init (frame GET_STATUS 0x08 ++ (frame START_MOTOR 1 ++
      (frames [(DATA, 0x41), (DATA, 0x42)] ++ (frame DATA_EOT 0x43 ++
      (frame STOP_MOTOR 1 ++ []))))) [])
    0x08 0x43 START_MOTOR 1 STOP_MOTOR 1 [(DATA, 0x41), (DATA, 0x42)] [] rfl rfl rfl rfl
    (by decide) (by simp [DATA, DATA_EOT]) rfl (by decide)
  rw [h.1]
  decide

/-! ## The write loop -/

/-- The definition of `takeThrough` in terms of the list library. -/
theorem takeThrough_eq {α : Type} (p : α → Bool) (l : List α) :
    takeThrough p l = l.takeWhile (fun x => !p x) ++ (l.dropWhile (fun x => !p x)).take 1 := by
  induction l with
  | nil => rfl
  | cons x xs ih =>
    by_cases h : p x = true
    · simp [takeThrough, h, List.takeWhile_cons, List.dropWhile_cons]
    · simp [takeThrough, h, List.takeWhile_cons, List.dropWhile_cons, ih]

theorem ucharOfInt_val (b : Byte) : ucharOfInt (b.val : Int) = b := by
  apply Fin.ext
  have := b.isLt
  simp only [ucharOfInt]
  omega

/-- One iteration of the write loop on a link that answers the `WRITE` with
`[WRITE][e]`, while no signal is due. -/
theorem writeLoop_step (fuel n : Nat) (echo : Bool) (b e : Byte) (w : World)
    (more : List Byte) (rest : List ReadRes)
    (hf : 2 ≤ fuel) (hi : w.interrupt = false) (hk : ∀ k, w.sigint = some k → 0 < k)
    (heof : w.stdinEof = false)
    (hw : w.writes = []) (hin : w.stdin = b :: more) (hr : w.reads = frame WRITE e ++ rest) :
    writeLoop fuel echo (n + 1) false w = writeLoop fuel echo n (decide (e ≠ 0))
      { w with stdin := more, reads := rest, sigint := w.sigint.map (· - 1),
               sent := w.sent ++ [(WRITE, b)],
               stdout := w.stdout ++ (if echo then [OutEv.putc b] else []) } := by
  have hp := pollSignal_pending w hk
  obtain ⟨openFails, reads, writes, junk, stdin, stdinEof, sigint, interrupt, opened, closed,
    speed, sent, stdout⟩ := w
  simp only at hi hk heof hw hin hr hp
  subst hi heof hw hin hr
  have h := sendLo8_ok fuel WRITE b WRITE e
    ⟨openFails, frame WRITE e ++ rest, [], junk, more, false, sigint.map (· - 1), false, opened,
      closed, speed, sent, stdout⟩ rest rfl rfl hf
  rw [if_pos rfl] at h
  simp only at h
  have he : decide ((e.val : Int) ≠ 0) = decide (e ≠ 0) := by
    have : (e.val : Int) = 0 ↔ e = 0 := by
      constructor
      · intro h0; apply Fin.ext; simpa using h0
      · intro h0; simp [h0]
    simp [this]
  have hb : ((b.val : Nat) : Int) ≥ 0 := by omega
  simp only [writeLoop, hp, Bool.not_false, Bool.and_self, if_true, getc, hb, ucharOfInt_val,
    doWrite, h, Option.map_some', he]
  cases echo <;> simp [putc]

theorem writeLoop_exit (fuel n : Nat) (echo : Bool) (w : World) (hs : w.sigint = none) :
    writeLoop fuel echo (n + 1) true w = some w := by
  simp [writeLoop, pollSignal_none w hs]

theorem writeLoop_exhausted (fuel n : Nat) (echo : Bool) (w : World)
    (hi : w.interrupt = false) (hs : w.sigint = none) (heof : w.stdinEof = false)
    (hin : w.stdin = []) :
    writeLoop fuel echo (n + 2) false w = some { w with stdinEof := true } := by
  obtain ⟨openFails, reads, writes, junk, stdin, stdinEof, sigint, interrupt, opened, closed,
    speed, sent, stdout⟩ := w
  simp only at hi hs heof hin
  subst hi hs heof hin
  simp [writeLoop, pollSignal, getc]

/-- The evaluation of the loop condition at which the signal is due. -/
theorem writeLoop_cancel (fuel n : Nat) (echo eot : Bool) (w : World) (hs : w.sigint = some 0) :
    writeLoop fuel echo (n + 1) eot w = some { w with sigint := none, interrupt := true } := by
  simp [writeLoop, pollSignal_zero w hs]

theorem written_cons_zero (b : Byte) (inp es : List Byte) :
    written (b :: inp) (0 :: es) = (b, 0) :: written inp es := by
  show takeThrough reportsEot ((b, 0) :: inp.zip es) = _
  simp only [takeThrough]
  rfl

theorem written_cons_eot (b e : Byte) (inp es : List Byte) (he : e ≠ 0) :
    written (b :: inp) (e :: es) = [(b, e)] := by
  show takeThrough reportsEot ((b, e) :: inp.zip es) = _
  have : reportsEot (b, e) = true := by simp [reportsEot, he]
  simp only [takeThrough, this, if_true]

/-- The write loop on a device that answers every `WRITE` with `[WRITE][e]`,
when no signal arrives: `es` lists the data bytes the device would answer
with, one for each input byte. -/
theorem writeLoop_spec (fuel : Nat) (echo : Bool) (hf : 2 ≤ fuel) : ∀ (inp es : List Byte)
    (n : Nat) (w : World) (rest : List ReadRes),
    es.length = inp.length → w.stdin = inp → w.stdinEof = false → w.writes = [] →
    w.interrupt = false → w.sigint = none →
    w.reads = frames ((written inp es).map fun q => (WRITE, q.2)) ++ rest →
    inp.length + 2 ≤ n →
    writeLoop fuel echo n false w = some
      { w with stdin := inp.drop (written inp es).length,
               stdinEof := !(inp.zip es).any reportsEot,
               reads := rest,
               sent := w.sent ++ (written inp es).map fun q => (WRITE, q.1),
               stdout := w.stdout ++
                 (if echo then (written inp es).map fun q => OutEv.putc q.1 else []) } := by
  intro inp
  induction inp with
  | nil =>
    intro es n w rest hl hin heof hw hi hs hr hn
    obtain ⟨m, rfl⟩ : ∃ m, n = m + 2 := ⟨n - 2, by omega⟩
    rw [writeLoop_exhausted fuel m echo w hi hs heof hin]
    cases w
    simp_all [written, takeThrough, frames]
  | cons b inp ih =>
    intro es n w rest hl hin heof hw hi hs hr hn
    cases es with
    | nil => simp at hl
    | cons e es =>
      simp only [List.length_cons] at hl hn
      obtain ⟨m, rfl⟩ : ∃ m, n = m + 1 := ⟨n - 1, by omega⟩
      obtain ⟨openFails, reads, writes, junk, stdin, stdinEof, sigint, interrupt, opened, closed,
        speed, sent, stdout⟩ := w
      simp only at hin heof hw hi hs hr
      subst hin heof hw hi hs
      by_cases he : e = 0
      · subst he
        rw [written_cons_zero] at hr ⊢
        simp only [List.map_cons, frames, List.append_assoc] at hr
        subst hr
        rw [writeLoop_step fuel m echo b 0 _ inp
          (frames ((written inp es).map fun q => (WRITE, q.2)) ++ rest) hf rfl (by simp) rfl
          rfl rfl rfl]
        have hd : decide ((0 : Byte) ≠ 0) = false := by decide
        rw [hd, ih es m _ rest (by omega) rfl rfl rfl rfl rfl rfl (by omega)]
        have hq : reportsEot (b, 0) = false := by simp [reportsEot]
        cases echo <;> simp [hq, List.append_assoc]
      · rw [written_cons_eot b e inp es he] at hr ⊢
        simp only [List.map_cons, List.map_nil, frames, List.append_nil, List.append_assoc] at hr
        subst hr
        obtain ⟨m', rfl⟩ : ∃ m', m = m' + 1 := ⟨m - 1, by omega⟩
        rw [writeLoop_step fuel (m' + 1) echo b e _ inp rest hf rfl (by simp) rfl rfl rfl rfl]
        have hd : decide (e ≠ 0) = true := by simp [he]
        rw [hd, writeLoop_exit fuel m' echo _ rfl]
        have hq : reportsEot (b, e) = true := by simp [reportsEot, he]
        cases echo <;> simp [hq]

theorem takeThrough_initial {α : Type} (p : α → Bool) (l : List α) :
    takeThrough p l <+: l := by
  induction l with
  | nil => exact List.prefix_refl _
  | cons x xs ih =>
    by_cases h : p x = true
    · simp only [takeThrough, h, if_true]
      exact ⟨xs, rfl⟩
    · simp only [takeThrough, h]
      exact (List.prefix_cons_inj x).2 ih

theorem takeThrough_dropLast {α : Type} (p : α → Bool) (l : List α) :
    ∀ x ∈ (takeThrough p l).dropLast, p x = false := by
  induction l with
  | nil => intro x hx; simp [takeThrough] at hx
  | cons y ys ih =>
    intro x hx
    by_cases h : p y = true
    · simp [takeThrough, h] at hx
    · have hy : p y = false := by simpa using h
      simp only [takeThrough, hy, Bool.false_eq_true, if_false] at hx
      cases hys : takeThrough p ys with
      | nil => simp [hys] at hx
      | cons z zs =>
        rw [hys, List.dropLast_cons₂, List.mem_cons] at hx
        rcases hx with rfl | hx
        · exact hy
        · exact ih x (by rw [hys]; exact hx)

theorem takeThrough_all {α : Type} (p : α → Bool) (l : List α) (h : ∀ x ∈ l, p x = false) :
    takeThrough p l = l := by
  induction l with
  | nil => rfl
  | cons y ys ih =>
    have hy : p y = false := h y (List.mem_cons_self _ _)
    simp only [takeThrough, hy]
    simp [ih fun x hx => h x (List.mem_cons_of_mem _ hx)]

theorem takeThrough_last {α : Type} (p : α → Bool) (l : List α) (h : ∃ x ∈ l, p x = true) :
    ∃ x, (takeThrough p l).getLast? = some x ∧ p x = true := by
  induction l with
  | nil => obtain ⟨x, hx, _⟩ := h; simp at hx
  | cons y ys ih =>
    by_cases hy : p y = true
    · exact ⟨y, by simp [takeThrough, hy], hy⟩
    · obtain ⟨x, hx, hpx⟩ := h
      have hx' : x ∈ ys := by
        rcases List.mem_cons.1 hx with rfl | h'
        · exact absurd hpx hy
        · exact h'
      obtain ⟨z, hz, hpz⟩ := ih ⟨x, hx', hpx⟩
      refine ⟨z, ?_, hpz⟩
      simp only [takeThrough, hy]
      cases hys : takeThrough p ys with
      | nil => simp [hys] at hz
      | cons u us => rw [hys] at hz; simpa [List.getLast?_cons_cons] using hz

/-! ## C3: what the write loop sends -/

/-- C3, as stated, fails.  This device answers the status query with "tape
present" and every other request with the frame `[0][0]`, whose data byte
is 0: no response reports end-of-tape.  The input is `0x10, 0x20`, yet
only `WRITE 0x10` is sent: the response `[0][0]` does not echo `WRITE`, so
`sendLo8` returns -1, which `doWrite` turns into true, and the loop leaves
with `0x20` unread and the next response `[0][0]` of the device unread.
The same in a run of `lo8 -w`, which returns 0. -/
theorem write_loop_counterexample :
    doWrite 2 0x10 (World.init (frame 0 0) []) =
      some (true, { World.init [] [] with sent := [(WRITE, 0x10)] }) ∧
    writeTask 4 { Vars.defaults with writeRequested := true }
      (World.init (frame GET_STATUS 0x08 ++ frames [(0, 0), (0, 0), (0, 0), (0, 0)])
        [0x10, 0x20])
    = some (none, { World.init (frame 0 0) [0x20] with
        sent := [(GET_STATUS, 0), (START_WRITE, 0), (WRITE, 0x10), (STOP_WRITE, 0)] }) ∧
    main 4 [Opt.write]
      (World.init (frame 0 0 ++ frame GET_STATUS 0x08 ++
        frames [(0, 0), (0, 0), (0, 0), (0, 0)]) [0x10, 0x20])
    = some (0, { World.init (frame 0 0) [0x20] with
        opened := true, closed := true, speed := some Speed.B9600,
        sent := [(RESET_EOT, 0), (GET_STATUS, 0), (START_WRITE, 0), (WRITE, 0x10),
          (STOP_WRITE, 0)] }) := by
  decide

/-- One exchange on a link that settles it by `r`. -/
theorem sendLo8_reply (fuel : Nat) (cmd data : Byte) (r : Reply) (w : World)
    (rest : List ReadRes)
    (hc : cmd ≠ 255) (hwf : r.WellFormed) (hw : w.writes.headD 2 = r.writeResult)
    (hr : w.reads = r.reads ++ rest) (hf : 2 ≤ fuel) :
    sendLo8 fuel cmd data w = some (r.result cmd,
      { w with writes := w.writes.tail, reads := rest, sent := w.sent ++ [(cmd, data)] }) := by
  obtain ⟨openFails, reads, writes, junk, stdin, stdinEof, sigint, interrupt, opened, closed,
    speed, sent, stdout⟩ := w
  simp only at hw hr
  subst hr
  have h255 : (255 : Byte) ≠ cmd := fun h => hc h.symm
  cases r with
  | refused n =>
    have hn : n ≠ 2 := hwf
    simp only [Reply.writeResult] at hw
    have h := sendLo8_writeFails fuel cmd data
      ⟨openFails, rest, writes, junk, stdin, stdinEof, sigint, interrupt, opened, closed, speed,
        sent, stdout⟩ (by rw [hw]; exact hn)
    simp only [Reply.reads, Reply.result, List.nil_append]
    exact h
  | broken got =>
    simp only [Reply.writeResult] at hw
    cases got with
    | none =>
      have h := readLo8_err0 0 fuel
        ⟨openFails, ReadRes.err :: rest, writes.tail, junk, stdin, stdinEof, sigint, interrupt,
          opened, closed, speed, sent ++ [(cmd, data)], stdout⟩ rest rfl (by omega)
      simp only at h
      simp only [sendLo8, sysWrite, Reply.reads, Reply.result, hw, List.singleton_append, h,
        byte0_neg_one]
      simp [h255]
    | some a =>
      have h := readLo8_err1 0 0 fuel a
        ⟨openFails, ReadRes.byte a :: ReadRes.err :: rest, writes.tail, junk, stdin, stdinEof,
          sigint, interrupt, opened, closed, speed, sent ++ [(cmd, data)], stdout⟩ rest rfl
        (by omega)
      simp only at h
      simp only [sendLo8, sysWrite, Reply.reads, Reply.result, hw, List.cons_append,
        List.nil_append, h, byte0_neg_one]
      simp [h255]
  | answered r0 r1 =>
    simp only [Reply.writeResult] at hw
    have h := sendLo8_frame 0 0 fuel cmd data r0 r1
      ⟨openFails, frame r0 r1 ++ rest, writes, junk, stdin, stdinEof, sigint, interrupt, opened,
        closed, speed, sent, stdout⟩ rest hw rfl (by omega)
    simp only [Reply.reads, Reply.result]
    exact h

/-- A tape check that lets `main` go on, on a link that settles it by `t`. -/
theorem tapeCheck_reply (fuel : Nat) (t : Reply) (w : World)
    (rest : List ReadRes) (hwf : t.WellFormed) (hw : w.writes.headD 2 = t.writeResult)
    (hr : w.reads = t.reads ++ rest) (hf : 2 ≤ fuel)
    (ht : bitAnd (t.result GET_STATUS) 0x08 ≠ 0) :
    tapeCheck fuel w = some (none,
      { w with writes := w.writes.tail, reads := rest,
               sent := w.sent ++ [(GET_STATUS, 0)] }) := by
  have h0 := sendLo8_reply fuel GET_STATUS 0 t w rest (by decide) hwf hw hr hf
  simp only [tapeCheck, getTapeIn, h0, Option.map_some', if_neg ht]

/-- A wrapper that drops the result, on a link that settles the exchange by `r`. -/
theorem dropResult_reply (fuel : Nat) (cmd data : Byte) (r : Reply) (w : World)
    (rest : List ReadRes)
    (hc : cmd ≠ 255) (hwf : r.WellFormed) (hw : w.writes.headD 2 = r.writeResult)
    (hr : w.reads = r.reads ++ rest) (hf : 2 ≤ fuel) :
    (sendLo8 fuel cmd data w).map (fun p => p.2)
      = some { w with writes := w.writes.tail, reads := rest,
                      sent := w.sent ++ [(cmd, data)] } := by
  rw [sendLo8_reply fuel cmd data r w rest hc hwf hw hr hf]; rfl

/-- One iteration of the write loop on a link that settles the `WRITE` by
`r`, when no signal arrives. -/
theorem writeLoop_reply (fuel n : Nat) (echo : Bool) (b : Byte) (r : Reply) (w : World)
    (more : List Byte) (rest : List ReadRes)
    (hf : 2 ≤ fuel) (hi : w.interrupt = false) (hs : w.sigint = none)
    (heof : w.stdinEof = false) (hwf : r.WellFormed)
    (hw : w.writes.headD 2 = r.writeResult) (hin : w.stdin = b :: more)
    (hr : w.reads = r.reads ++ rest) :
    writeLoop fuel echo (n + 1) false w = writeLoop fuel echo n (decide (r.result WRITE ≠ 0))
      { w with stdin := more, writes := w.writes.tail, reads := rest,
               sent := w.sent ++ [(WRITE, b)],
               stdout := w.stdout ++ (if echo then [OutEv.putc b] else []) } := by
  have hp := pollSignal_none w hs
  obtain ⟨openFails, reads, writes, junk, stdin, stdinEof, sigint, interrupt, opened, closed,
    speed, sent, stdout⟩ := w
  simp only at hi hs heof hw hin hr hp
  subst hi heof hin hr hs
  have h := sendLo8_reply fuel WRITE b r
    ⟨openFails, r.reads ++ rest, writes, junk, more, false, none, false, opened,
      closed, speed, sent, stdout⟩ rest (by decide) hwf hw rfl hf
  simp only at h
  have hb : ((b.val : Nat) : Int) ≥ 0 := by omega
  simp only [writeLoop, hp, Bool.not_false, Bool.and_self, if_true, getc, hb, ucharOfInt_val,
    doWrite, h, Option.map_some']
  cases echo <;> simp [putc]

theorem served_cons_go (b : Byte) (r : Reply) (inp : List Byte) (rs : List Reply)
    (h : r.result WRITE = 0) : served (b :: inp) (r :: rs) = (b, r) :: served inp rs := by
  show takeThrough endsWrite ((b, r) :: inp.zip rs) = _
  have : endsWrite (b, r) = false := by simp [endsWrite, h]
  simp only [takeThrough, this]
  rfl

theorem served_cons_stop (b : Byte) (r : Reply) (inp : List Byte) (rs : List Reply)
    (h : r.result WRITE ≠ 0) : served (b :: inp) (r :: rs) = [(b, r)] := by
  show takeThrough endsWrite ((b, r) :: inp.zip rs) = _
  have : endsWrite (b, r) = true := by simp [endsWrite, h]
  simp only [takeThrough, this, if_true]

theorem replyReads_append (xs ys : List Reply) :
    replyReads (xs ++ ys) = replyReads xs ++ replyReads ys := by
  induction xs with
  | nil => rfl
  | cons x xs ih => simp [replyReads, ih, List.append_assoc]

theorem drop_tail_eq (ws : List Int) (k : Nat) : ws.tail.drop k = ws.drop (k + 1) := by
  cases ws <;> simp

/-- The results of `k + 1` calls of `write`: those of the first `k`, and
that of the next one. -/
theorem nextWrites_snoc : ∀ (xs : List Int) (x : Int) (ws : List Int),
    nextWrites (xs.length + 1) ws = xs ++ [x] →
    nextWrites xs.length ws = xs ∧ (ws.drop xs.length).headD 2 = x := by
  intro xs
  induction xs with
  | nil =>
    intro x ws h
    simp only [List.length_nil, Nat.zero_add, nextWrites, List.nil_append, List.cons.injEq,
      and_true] at h
    exact ⟨rfl, by simpa using h⟩
  | cons y ys ih =>
    intro x ws h
    simp only [List.length_cons, nextWrites, List.cons_append, List.cons.injEq] at h
    obtain ⟨h1, h2⟩ := ih x ws.tail h.2
    refine ⟨?_, ?_⟩
    · simp only [List.length_cons, nextWrites, h.1, h1]
    · rw [List.length_cons, ← drop_tail_eq]
      exact h2

/-- The write loop when no signal arrives, on a link that would settle the
successive `WRITE` requests by the replies `rs`, one for each input byte. -/
theorem writeLoop_replies (fuel : Nat) (echo : Bool) (hf : 2 ≤ fuel) : ∀ (inp : List Byte)
    (rs : List Reply) (n : Nat) (w : World) (rest : List ReadRes),
    rs.length = inp.length → (∀ r ∈ rs, r.WellFormed) →
    w.stdin = inp → w.stdinEof = false → w.interrupt = false → w.sigint = none →
    nextWrites (served inp rs).length w.writes
      = writeResults ((served inp rs).map fun q => q.2) →
    w.reads = replyReads ((served inp rs).map fun q => q.2) ++ rest →
    inp.length + 2 ≤ n →
    writeLoop fuel echo n false w = some
      { w with stdin := inp.drop (served inp rs).length,
               stdinEof := !(inp.zip rs).any endsWrite,
               writes := w.writes.drop (served inp rs).length, reads := rest,
               sent := w.sent ++ (served inp rs).map fun q => (WRITE, q.1),
               stdout := w.stdout ++
                 (if echo then (served inp rs).map fun q => OutEv.putc q.1 else []) } := by
  intro inp
  induction inp with
  | nil =>
    intro rs n w rest hl hwf hin heof hi hs hw hr hn
    obtain ⟨m, rfl⟩ : ∃ m, n = m + 2 := ⟨n - 2, by omega⟩
    rw [writeLoop_exhausted fuel m echo w hi hs heof hin]
    cases w
    simp_all [served, takeThrough, replyReads, writeResults]
  | cons b inp ih =>
    intro rs n w rest hl hwf hin heof hi hs hw hr hn
    cases rs with
    | nil => simp at hl
    | cons r rs =>
      simp only [List.length_cons] at hl hn
      have hwf1 : r.WellFormed := hwf r (List.mem_cons_self _ _)
      have hwf2 : ∀ x ∈ rs, x.WellFormed := fun x hx => hwf x (List.mem_cons_of_mem _ hx)
      obtain ⟨m, rfl⟩ : ∃ m, n = m + 1 := ⟨n - 1, by omega⟩
      obtain ⟨openFails, reads, writes, junk, stdin, stdinEof, sigint, interrupt, opened, closed,
        speed, sent, stdout⟩ := w
      simp only at hin heof hw hi hs hr
      subst hin heof hi hs
      by_cases he : r.result WRITE = 0
      · rw [served_cons_go b r inp rs he] at hw hr ⊢
        simp only [List.map_cons, replyReads, writeResults, List.append_assoc,
          List.length_cons, nextWrites, List.cons.injEq] at hw hr
        subst hr
        rw [writeLoop_reply fuel m echo b r _ inp
          (replyReads ((served inp rs).map fun q => q.2) ++ rest) hf rfl rfl rfl hwf1 hw.1 rfl
          rfl]
        have hd : decide (r.result WRITE ≠ 0) = false := by simp [he]
        rw [hd, ih rs m _ rest (by omega) hwf2 rfl rfl rfl rfl hw.2 rfl (by omega)]
        have hq : endsWrite (b, r) = false := by simp [endsWrite, he]
        cases echo <;> simp [hq, List.append_assoc, drop_tail_eq]
      · rw [served_cons_stop b r inp rs he] at hw hr ⊢
        simp only [List.map_cons, List.map_nil, replyReads, writeResults, List.append_nil,
          List.append_assoc, List.length_cons, List.length_nil, nextWrites,
          List.cons.injEq, and_true] at hw hr
        subst hr
        obtain ⟨m', rfl⟩ : ∃ m', m = m' + 1 := ⟨m - 1, by omega⟩
        rw [writeLoop_reply fuel (m' + 1) echo b r _ inp rest hf rfl rfl rfl hwf1 hw rfl rfl]
        have hd : decide (r.result WRITE ≠ 0) = true := by simp [he]
        rw [hd, writeLoop_exit fuel m' echo _ rfl]
        have hq : endsWrite (b, r) = true := by simp [endsWrite, he]
        cases echo <;> simp [hq]

/-- The write request when the tape check lets it go on and no signal
arrives, on a link that settles the tape check by `t`, `START_WRITE` by `a`,
the successive `WRITE` requests by `rs` and `STOP_WRITE` by `c`. -/
theorem writeTask_replies (fuel : Nat) (v : Vars) (w : World) (t a c : Reply)
    (inp : List Byte) (rs : List Reply) (rest : List ReadRes)
    (hv : v.writeRequested = true) (hsig : w.sigint = none)
    (hi : w.interrupt = false) (heof : w.stdinEof = false) (hin : w.stdin = inp)
    (hl : rs.length = inp.length) (hwf : ∀ r ∈ t :: a :: c :: rs, r.WellFormed)
    (ht : bitAnd (t.result GET_STATUS) 0x08 ≠ 0)
    (hw : nextWrites ((served inp rs).length + 3) w.writes
      = writeResults (t :: a :: (((served inp rs).map fun q => q.2) ++ [c])))
    (hr : w.reads
      = replyReads (t :: a :: (((served inp rs).map fun q => q.2) ++ [c])) ++ rest)
    (hf : inp.length + 2 ≤ fuel) :
    writeTask fuel v w = some (none,
      { w with stdin := inp.drop (served inp rs).length,
               stdinEof := !(inp.zip rs).any endsWrite,
               writes := w.writes.drop ((served inp rs).length + 3), reads := rest,
               sent := w.sent ++ [(GET_STATUS, 0), (START_WRITE, 0)] ++
                 ((served inp rs).map fun q => (WRITE, q.1)) ++ [(STOP_WRITE, 0)],
               stdout := w.stdout ++
                 (if v.echo then (served inp rs).map fun q => OutEv.putc q.1 else []) }) := by
  have hf2 : 2 ≤ fuel := by omega
  have hwt : t.WellFormed := hwf t (by simp)
  have hwa : a.WellFormed := hwf a (by simp)
  have hwc : c.WellFormed := hwf c (by simp)
  have hwr : ∀ r ∈ rs, r.WellFormed := fun r hr => hwf r (by simp [hr])
  obtain ⟨openFails, reads, writes, junk, stdin, stdinEof, sigint, interrupt, opened, closed,
    speed, sent, stdout⟩ := w
  simp only at hsig hi heof hin hw hr
  simp only [writeResults, List.map_cons, List.map_append, List.map_nil, replyReads,
    replyReads_append, List.append_nil, List.append_assoc, List.cons_append,
    List.nil_append] at hr
  subst hsig hi heof hin hr
  rw [show (served stdin rs).length + 3 = ((served stdin rs).length + 1) + 1 + 1 from rfl] at hw
  simp only [writeResults, List.map_cons, List.map_append, List.map_nil, nextWrites,
    List.cons.injEq] at hw
  obtain ⟨hw1, hw2, hw3⟩ := hw
  have hlen : (served stdin rs).length
      = (List.map Reply.writeResult ((served stdin rs).map fun q => q.2)).length := by simp
  rw [hlen] at hw3
  obtain ⟨hw4, hw5⟩ := nextWrites_snoc _ _ _ hw3
  rw [← hlen] at hw4 hw5
  have h1 := tapeCheck_reply fuel t
    ⟨openFails, t.reads ++ (a.reads ++ (replyReads ((served stdin rs).map fun q => q.2) ++
        (c.reads ++ rest))),
      writes, junk, stdin, false, none, false, opened, closed, speed, sent, stdout⟩ _ hwt hw1
    rfl hf2 ht
  have h2 := dropResult_reply fuel START_WRITE 0 a
    ⟨openFails, a.reads ++ (replyReads ((served stdin rs).map fun q => q.2) ++
        (c.reads ++ rest)),
      writes.tail, junk, stdin, false, none, false, opened, closed, speed,
      sent ++ [(GET_STATUS, 0)], stdout⟩ _ (by decide) hwa hw2 rfl hf2
  have h3 := writeLoop_replies fuel v.echo hf2 stdin rs fuel
    ⟨openFails, replyReads ((served stdin rs).map fun q => q.2) ++ (c.reads ++ rest),
      writes.tail.tail, junk, stdin, false, none, false, opened, closed, speed,
      sent ++ [(GET_STATUS, 0)] ++ [(START_WRITE, 0)], stdout⟩
    (c.reads ++ rest) hl hwr rfl rfl rfl rfl hw4 rfl hf
  have h5 := dropResult_reply fuel STOP_WRITE 0 c
    ⟨openFails, c.reads ++ rest, writes.tail.tail.drop (served stdin rs).length, junk,
      stdin.drop (served stdin rs).length, !(stdin.zip rs).any endsWrite, none, false, opened,
      closed, speed,
      sent ++ [(GET_STATUS, 0)] ++ [(START_WRITE, 0)] ++
        ((served stdin rs).map fun q => (WRITE, q.1)),
      stdout ++ (if v.echo then (served stdin rs).map fun q => OutEv.putc q.1 else [])⟩
    rest (by decide) hwc hw5 rfl hf2
  simp only at h1 h2 h3 h5
  simp only [writeTask, hv, if_true, h1, andThen, startWrite, h2, Option.bind, h3,
    stopWrite, h5, noReturn, Option.map_some']
  have hd : (writes.tail.tail.drop (served stdin rs).length).tail
      = writes.drop ((served stdin rs).length + 3) := by
    rw [List.tail_drop, drop_tail_eq, drop_tail_eq]
  simp [List.append_assoc, hd]

/-- The write request on a drive with a tape and no signal, on a device that
would answer the successive `WRITE` commands with the data bytes `es`: it
returns after one `STOP_WRITE`. -/
theorem writeTask_done (fuel : Nat) (v : Vars) (w : World) (s a b c d : Byte)
    (inp es : List Byte) (rest : List ReadRes)
    (hv : v.writeRequested = true) (hw : w.writes = []) (hsig : w.sigint = none)
    (hi : w.interrupt = false) (heof : w.stdinEof = false) (hin : w.stdin = inp)
    (hl : es.length = inp.length) (hs : s.val.testBit 3 = true)
    (hr : w.reads = frame GET_STATUS s ++ (frame a b ++
      (frames ((written inp es).map fun q => (WRITE, q.2)) ++ (frame c d ++ rest))))
    (hf : inp.length + 2 ≤ fuel) :
    writeTask fuel v w = some (none,
      { w with stdin := inp.drop (written inp es).length,
               stdinEof := !(inp.zip es).any reportsEot,
               reads := rest,
               sent := w.sent ++ [(GET_STATUS, 0), (START_WRITE, 0)] ++
                 ((written inp es).map fun q => (WRITE, q.1)) ++ [(STOP_WRITE, 0)],
               stdout := w.stdout ++
                 (if v.echo then (written inp es).map fun q => OutEv.putc q.1 else []) }) := by
  have hf2 : 2 ≤ fuel := by omega
  have h1 := tapeCheck_present _ s w _ hw hr hf2 hs
  have h2 := sendLo8_world fuel START_WRITE 0 a b
    { w with reads := frame a b ++
               (frames ((written inp es).map fun q => (WRITE, q.2)) ++ (frame c d ++ rest)),
             sent := w.sent ++ [(GET_STATUS, 0)] } _ hw rfl hf2
  have h3 := writeLoop_spec fuel v.echo hf2 inp es fuel
    { w with reads := frames ((written inp es).map fun q => (WRITE, q.2)) ++ (frame c d ++ rest),
             sent := w.sent ++ [(GET_STATUS, 0)] ++ [(START_WRITE, 0)] }
    (frame c d ++ rest) hl hin heof hw hi hsig rfl hf
  have h5 := sendLo8_world fuel STOP_WRITE 0 c d
    { w with stdin := inp.drop (written inp es).length,
             stdinEof := !(inp.zip es).any reportsEot,
             reads := frame c d ++ rest,
             sent := w.sent ++ [(GET_STATUS, 0)] ++ [(START_WRITE, 0)] ++
               ((written inp es).map fun q => (WRITE, q.1)),
             stdout := w.stdout ++
               (if v.echo then (written inp es).map fun q => OutEv.putc q.1 else []) }
    rest hw rfl hf2
  simp only [writeTask, hv, if_true, h1, andThen, startWrite, h2, Option.bind, h3,
    stopWrite, h5, noReturn, Option.map_some']
  simp [List.append_assoc]

/-- The write loop goes on after a `WRITE` exactly when the reply to it is
the frame `[WRITE][0]`. -/
theorem result_write_zero (r : Reply) : r.result WRITE = 0 ↔ r = Reply.answered WRITE 0 := by
  cases r with
  | refused n => simp [Reply.result]
  | broken got => simp [Reply.result]
  | answered r0 r1 =>
    simp only [Reply.result, Reply.answered.injEq]
    by_cases h0 : r0 = WRITE
    · simp only [h0, if_true, true_and]
      constructor
      · intro h; apply Fin.ext; simpa using h
      · intro h; simp [h]
    · simp [h0]

theorem endsWrite_false (q : Byte × Reply) :
    endsWrite q = false ↔ q.2 = Reply.answered WRITE 0 := by
  simp [endsWrite, result_write_zero]

theorem endsWrite_true (q : Byte × Reply) :
    endsWrite q = true ↔ q.2 ≠ Reply.answered WRITE 0 := by
  simp [endsWrite, result_write_zero]

/-- A tape check that does not report the tape absent lets `main` go on. -/
theorem tape_not_absent (t : Reply)
    (ht : ∀ s, t = Reply.answered GET_STATUS s → s.val.testBit 3 = true) :
    bitAnd (t.result GET_STATUS) 0x08 ≠ 0 := by
  cases t with
  | refused n => simp only [Reply.result, bitAnd_neg_one_tape]; decide
  | broken got => simp only [Reply.result, bitAnd_neg_one_tape]; decide
  | answered r0 r1 =>
    simp only [Reply.result]
    by_cases h0 : r0 = GET_STATUS
    · subst h0
      simp only [if_true]
      intro h
      have h1 := ht r1 rfl
      rw [(bitAnd_tape r1).1 h] at h1
      exact Bool.noConfusion h1
    · simp only [h0, if_false, bitAnd_neg_one_tape]
      decide

/-- C3, amended.  Write loop commands: when no signal arrives and the tape
check does not report the tape absent, for every input `inp` and every
scripted link (which settles the tape check by `t`, `START_WRITE` by `a`,
`STOP_WRITE` by `c` and would settle the successive `WRITE` requests by the
replies `rs`; a reply is a refused `write`, a failed `read` or a response
frame), the write request terminates, and the `WRITE` commands it sends
carry the bytes of `served inp rs`, in order: a prefix of the input, in
which every byte but the last was answered with the frame `[WRITE][0]`,
which is the whole input if every `WRITE` is answered so, and which
otherwise ends with the first byte whose reply is another one: a response
`[WRITE][e]` with `e` nonzero (end-of-tape), or a failed exchange (a
response with another opcode, a refused `write`, a failed `read`), which
ends the loop as well.  The replies used up are those to the commands sent,
so no `WRITE` follows such a reply; in echo mode standard output receives
the bytes of the `WRITE` commands sent, otherwise nothing. -/
theorem write_loop_commands (fuel : Nat) (v : Vars) (w : World) (t a c : Reply)
    (inp : List Byte) (rs : List Reply) (rest : List ReadRes)
    (hv : v.writeRequested = true) (hsig : w.sigint = none)
    (hi : w.interrupt = false) (heof : w.stdinEof = false) (hin : w.stdin = inp)
    (hl : rs.length = inp.length) (hwf : ∀ r ∈ t :: a :: c :: rs, r.WellFormed)
    (ht : ∀ s, t = Reply.answered GET_STATUS s → s.val.testBit 3 = true)
    (hw : nextWrites ((served inp rs).length + 3) w.writes
      = writeResults (t :: a :: (((served inp rs).map fun q => q.2) ++ [c])))
    (hr : w.reads
      = replyReads (t :: a :: (((served inp rs).map fun q => q.2) ++ [c])) ++ rest)
    (hf : inp.length + 2 ≤ fuel) :
    writeTask fuel v w = some (none,
      { w with stdin := inp.drop (served inp rs).length,
               stdinEof := !(inp.zip rs).any endsWrite,
               writes := w.writes.drop ((served inp rs).length + 3), reads := rest,
               sent := w.sent ++ [(GET_STATUS, 0), (START_WRITE, 0)] ++
                 ((served inp rs).map fun q => (WRITE, q.1)) ++ [(STOP_WRITE, 0)],
               stdout := w.stdout ++
                 (if v.echo then (served inp rs).map fun q => OutEv.putc q.1 else []) }) ∧
    (served inp rs).map (fun q => q.1) <+: inp ∧
    (∀ q ∈ (served inp rs).dropLast, q.2 = Reply.answered WRITE 0) ∧
    ((∀ r ∈ rs, r = Reply.answered WRITE 0) → (served inp rs).map (fun q => q.1) = inp) ∧
    ((∃ q ∈ inp.zip rs, q.2 ≠ Reply.answered WRITE 0) →
      ∃ q, (served inp rs).getLast? = some q ∧ q.2 ≠ Reply.answered WRITE 0) := by
  refine ⟨writeTask_replies fuel v w t a c inp rs rest hv hsig hi heof hin hl hwf
    (tape_not_absent t ht) hw hr hf, ?_, ?_, ?_, ?_⟩
  · have h := (takeThrough_initial endsWrite (inp.zip rs)).map (fun q => q.1)
    have hz : (inp.zip rs).map (fun q => q.1) = inp := by
      have := List.map_fst_zip inp rs (by omega)
      simpa using this
    rw [hz] at h
    exact h
  · intro q hq
    exact (endsWrite_false q).1 (takeThrough_dropLast endsWrite (inp.zip rs) q hq)
  · intro h0
    have hall : ∀ q ∈ inp.zip rs, endsWrite q = false := by
      intro q hq
      exact (endsWrite_false q).2 (h0 q.2 (List.of_mem_zip hq).2)
    have hz : (inp.zip rs).map (fun q => q.1) = inp := by
      have := List.map_fst_zip inp rs (by omega)
      simpa using this
    rw [served, takeThrough_all endsWrite _ hall, hz]
  · rintro ⟨q, hq, hne⟩
    obtain ⟨x, hx, hpx⟩ := takeThrough_last endsWrite (inp.zip rs)
      ⟨q, hq, (endsWrite_true q).2 hne⟩
    exact ⟨x, hx, (endsWrite_true x).1 hpx⟩

/-- C3 amended, at the scripted device of the specification: input
`0x10, 0x20, 0x30`, end-of-tape reported on the third `WRITE` only; echo
mode. -/
theorem write_loop_commands_witness :
    writeTask 5 { Vars.defaults with writeRequested := true, echo := true }
      (World.init (frame GET_STATUS 0x08 ++ (frame START_WRITE 0 ++
        (frames [(WRITE, 0), (WRITE, 0), (WRITE, 1)] ++ (frame STOP_WRITE 1 ++ []))))
        [0x10, 0x20, 0x30])
    = some (none, { World.init [] [] with
        sent := [(GET_STATUS, 0), (START_WRITE, 0), (WRITE, 0x10), (WRITE, 0x20), (WRITE, 0x30),
          (STOP_WRITE, 0)],
        stdout := [OutEv.putc 0x10, OutEv.putc 0x20, OutEv.putc 0x30] }) := by
  have h := (write_loop_commands 5 { Vars.defaults with writeRequested := true, echo := true }
    (World.init (frame GET_STATUS 0x08 ++ (frame START_WRITE 0 ++
      (frames [(WRITE, 0), (WRITE, 0), (WRITE, 1)] ++ (frame STOP_WRITE 1 ++ []))))
      [0x10, 0x20, 0x30])
    (Reply.answered GET_STATUS 0x08) (Reply.answered START_WRITE 0)
    (Reply.answered STOP_WRITE 1) [0x10, 0x20, 0x30]
    [Reply.answered WRITE 0, Reply.answered WRITE 0, Reply.answered WRITE 1] []
    rfl rfl rfl rfl rfl rfl
    (by
      intro r hr
      simp only [List.mem_cons, List.mem_singleton, List.not_mem_nil, or_false] at hr
      rcases hr with rfl | rfl | rfl | rfl | rfl | rfl <;> exact True.intro)
    (by
      intro s hs
      cases hs
      decide)
    (by decide) (by decide) (by decide)).1
  rw [h]
  decide

/-! ## The trace of the loops and of the tape check, on any link -/

theorem pollSignal_sent (w : World) : (pollSignal w).sent = w.sent := by
  unfold pollSignal int_handler; split <;> simp

theorem readLoop_sent (fuel : Nat) : ∀ (n : Nat) (eot : Bool) (w w' : World),
    readLoop fuel n eot w = some w' → w'.sent = w.sent := by
  intro n
  induction n with
  | zero => intro eot w w' h; simp [readLoop] at h
  | succ n ih =>
    intro eot w w' h
    simp only [readLoop] at h
    split at h
    · cases hr : readLo8 fuel (pollSignal w) with
      | none => simp [hr] at h
      | some p =>
        obtain ⟨d, w1⟩ := p
        have h1 : w1.sent = w.sent := by
          rw [readLo8_sent _ _ _ _ hr, pollSignal_sent]
        simp only [hr] at h
        split at h
        · rw [ih _ _ _ h]; simpa [putc] using h1
        · split at h
          · rw [ih _ _ _ h]; simpa [putc] using h1
          · rw [ih _ _ _ h]; exact h1
    · simp only [Option.some.injEq] at h
      rw [← h, pollSignal_sent]

theorem writeLoop_sent (fuel : Nat) (echo : Bool) : ∀ (n : Nat) (eot : Bool) (w w' : World),
    writeLoop fuel echo n eot w = some w' →
    ∃ bs : List Byte, w'.sent = w.sent ++ bs.map fun x => (WRITE, x) := by
  intro n
  induction n with
  | zero => intro eot w w' h; simp [writeLoop] at h
  | succ n ih =>
    intro eot w w' h
    simp only [writeLoop] at h
    split at h
    · cases hin : (pollSignal w).stdin with
      | nil =>
        simp only [getc, hin] at h
        obtain ⟨bs, hbs⟩ := ih _ _ _ h
        exact ⟨bs, by rw [hbs]; simp [pollSignal_sent]⟩
      | cons x more =>
        simp only [getc, hin] at h
        have hx : ((x.val : Nat) : Int) ≥ 0 := by omega
        simp only [hx, if_true, doWrite] at h
        cases hs : sendLo8 fuel WRITE (ucharOfInt (x.val : Int))
            { pollSignal w with stdin := more } with
        | none => simp [hs] at h
        | some p =>
          obtain ⟨r, w2⟩ := p
          have h2 := sendLo8_sent _ _ _ _ _ _ hs
          simp only [hs, Option.map_some'] at h
          obtain ⟨bs, hbs⟩ := ih _ _ _ h
          refine ⟨x :: bs, ?_⟩
          rw [hbs]
          cases echo <;>
            simp [putc, h2, pollSignal_sent, ucharOfInt_val, List.append_assoc]
    · simp only [Option.some.injEq] at h
      exact ⟨[], by rw [← h]; simp [pollSignal_sent]⟩

/-- A tape check that returns either ends `main` with `LO8_NO_TAPE`, after an
exchange that gave a status with bit 3 clear, or lets it go on. -/
theorem tapeCheck_cases (fuel : Nat) (w w' : World) (r : Option Int)
    (h : tapeCheck fuel w = some (r, w')) :
    ∃ (st : Int) (w1 : World), sendLo8 fuel GET_STATUS 0 w = some (st, w1) ∧
      ((bitAnd st 0x08 = 0 ∧ r = some LO8_NO_TAPE ∧ w' = close w1) ∨
       (bitAnd st 0x08 ≠ 0 ∧ r = none ∧ w' = w1)) := by
  simp only [tapeCheck, getTapeIn] at h
  cases hs : sendLo8 fuel GET_STATUS 0 w with
  | none => simp [hs] at h
  | some p =>
    obtain ⟨st, w1⟩ := p
    refine ⟨st, w1, rfl, ?_⟩
    simp only [hs, Option.map_some', Option.some.injEq] at h
    by_cases hb : bitAnd st 0x08 = 0
    · simp only [hb, if_true, Prod.mk.injEq] at h
      exact Or.inl ⟨hb, h.1.symm, h.2.symm⟩
    · simp only [hb, if_false, Prod.mk.injEq] at h
      exact Or.inr ⟨hb, h.1.symm, h.2.symm⟩

theorem tapeCheck_sent (fuel : Nat) (w w' : World) (r : Option Int)
    (h : tapeCheck fuel w = some (r, w')) : w'.sent = w.sent ++ [(GET_STATUS, 0)] := by
  obtain ⟨st, w1, hs, hc⟩ := tapeCheck_cases fuel w w' r h
  have := sendLo8_sent _ _ _ _ _ _ hs
  rcases hc with ⟨_, _, rfl⟩ | ⟨_, _, rfl⟩
  · simpa [close] using this
  · exact this

/-- A wrapper that drops the result of its exchange. -/
theorem dropResult_sent (fuel : Nat) (cmd data : Byte) (w w' : World)
    (h : (sendLo8 fuel cmd data w).map (fun r => r.2) = some w') :
    w'.sent = w.sent ++ [(cmd, data)] := by
  cases hs : sendLo8 fuel cmd data w with
  | none => simp [hs] at h
  | some p =>
    obtain ⟨r, w1⟩ := p
    simp only [hs, Option.map_some', Option.some.injEq] at h
    rw [← h]
    exact sendLo8_sent _ _ _ _ _ _ hs

/-! ## The cleanup frame, on any link -/

/-- Every way out of the read request: without a tape only `GET_STATUS` has
been sent; otherwise `START_MOTOR` is followed by exactly one `STOP_MOTOR`,
the last frame. -/
theorem readTask_sent (fuel : Nat) (v : Vars) (w w' : World) (r : Option Int)
    (hv : v.readRequested = true) (h : readTask fuel v w = some (r, w')) :
    (r = some LO8_NO_TAPE ∧ w'.sent = w.sent ++ [(GET_STATUS, 0)]) ∨
    (r = none ∧ w'.sent = w.sent ++ [(GET_STATUS, 0), (START_MOTOR, 0), (STOP_MOTOR, 0)]) := by
  simp only [readTask, hv, if_true] at h
  cases ht : tapeCheck fuel w with
  | none => simp [ht, andThen] at h
  | some p =>
    obtain ⟨rc, w1⟩ := p
    have hs1 := tapeCheck_sent _ _ _ _ ht
    obtain ⟨st, w0, _, hc⟩ := tapeCheck_cases _ _ _ _ ht
    rcases hc with ⟨_, rfl, _⟩ | ⟨_, rfl, _⟩
    · simp only [ht, andThen, Option.some.injEq, Prod.mk.injEq] at h
      exact Or.inl ⟨h.1.symm, by rw [← h.2, hs1]⟩
    · simp only [ht, andThen, noReturn] at h
      cases h2 : startMotor fuel w1 with
      | none => simp [h2] at h
      | some w2 =>
        cases h3 : readLoop fuel fuel false w2 with
        | none => simp [h2, h3] at h
        | some w3 =>
          cases h4 : stopMotor fuel w3 with
          | none => simp [h2, h3, h4] at h
          | some w4 =>
            simp only [h2, h3, h4, Option.bind, Option.map_some', Option.some.injEq,
              Prod.mk.injEq] at h
            refine Or.inr ⟨h.1.symm, ?_⟩
            rw [← h.2, dropResult_sent _ _ _ _ _ h4, readLoop_sent _ _ _ _ _ h3,
              dropResult_sent _ _ _ _ _ h2, hs1]
            simp

/-- Every way out of the write request: without a tape only `GET_STATUS` has
been sent; otherwise `START_WRITE` is followed by `WRITE` frames only and
then exactly one `STOP_WRITE`, the last frame. -/
theorem writeTask_sent (fuel : Nat) (v : Vars) (w w' : World) (r : Option Int)
    (hv : v.writeRequested = true) (h : writeTask fuel v w = some (r, w')) :
    (r = some LO8_NO_TAPE ∧ w'.sent = w.sent ++ [(GET_STATUS, 0)]) ∨
    (r = none ∧ ∃ bs : List Byte, w'.sent = w.sent ++ [(GET_STATUS, 0), (START_WRITE, 0)] ++
      (bs.map fun x => (WRITE, x)) ++ [(STOP_WRITE, 0)]) := by
  simp only [writeTask, hv, if_true] at h
  cases ht : tapeCheck fuel w with
  | none => simp [ht, andThen] at h
  | some p =>
    obtain ⟨rc, w1⟩ := p
    have hs1 := tapeCheck_sent _ _ _ _ ht
    obtain ⟨st, w0, _, hc⟩ := tapeCheck_cases _ _ _ _ ht
    rcases hc with ⟨_, rfl, _⟩ | ⟨_, rfl, _⟩
    · simp only [ht, andThen, Option.some.injEq, Prod.mk.injEq] at h
      exact Or.inl ⟨h.1.symm, by rw [← h.2, hs1]⟩
    · simp only [ht, andThen, noReturn] at h
      cases h2 : startWrite fuel w1 with
      | none => simp [h2] at h
      | some w2 =>
        cases h3 : writeLoop fuel v.echo fuel false w2 with
        | none => simp [h2, h3] at h
        | some w3 =>
          cases h4 : stopWrite fuel w3 with
          | none => simp [h2, h3, h4] at h
          | some w4 =>
            simp only [h2, h3, h4, Option.bind, Option.map_some', Option.some.injEq,
              Prod.mk.injEq] at h
            obtain ⟨bs, hbs⟩ := writeLoop_sent _ _ _ _ _ _ h3
            refine Or.inr ⟨h.1.symm, bs, ?_⟩
            rw [← h.2, dropResult_sent _ _ _ _ _ h4, hbs,
              dropResult_sent _ _ _ _ _ h2, hs1]
            simp

/-- The write loop over input bytes that the device answers with 0 (no
end-of-tape), while no signal is due. -/
theorem writeLoop_zeros (fuel : Nat) (echo : Bool) (hf : 2 ≤ fuel) : ∀ (bs : List Byte)
    (n : Nat) (w : World) (more : List Byte) (rest : List ReadRes),
    w.stdin = bs ++ more → w.stdinEof = false → w.writes = [] → w.interrupt = false →
    (∀ k, w.sigint = some k → bs.length ≤ k) →
    w.reads = frames (bs.map fun _ => (WRITE, 0)) ++ rest →
    writeLoop fuel echo (bs.length + n) false w = writeLoop fuel echo n false
      { w with stdin := more, reads := rest, sigint := w.sigint.map (· - bs.length),
               sent := w.sent ++ bs.map fun x => (WRITE, x),
               stdout := w.stdout ++ (if echo then bs.map OutEv.putc else []) } := by
  intro bs
  induction bs with
  | nil =>
    intro n w more rest hin _ _ _ _ hr
    have : w = { w with stdin := more, reads := rest,
                        sigint := w.sigint.map (· - ([] : List Byte).length),
                        sent := w.sent ++ ([] : List Byte).map fun x => (WRITE, x),
                        stdout := w.stdout ++
                          (if echo then ([] : List Byte).map OutEv.putc else []) } := by
      cases w
      simp only [frames, List.map_nil, List.nil_append] at hr hin
      simp [hr, hin]
    rw [List.length_nil, Nat.zero_add]
    exact congrArg _ this
  | cons b bs ih =>
    intro n w more rest hin heof hw hi hk hr
    have hk0 : ∀ k, w.sigint = some k → 0 < k := fun k h => by
      have := hk k h; simp only [List.length_cons] at this; omega
    obtain ⟨openFails, reads, writes, junk, stdin, stdinEof, sigint, interrupt, opened, closed,
      speed, sent, stdout⟩ := w
    simp only at hin heof hw hi hk hk0 hr
    simp only [List.map_cons, frames, List.append_assoc, List.cons_append] at hr hin
    subst hin heof hw hi hr
    rw [show (b :: bs).length + n = (bs.length + n) + 1 by simp only [List.length_cons]; omega]
    rw [writeLoop_step fuel _ echo b 0 _ (bs ++ more)
      (frames (bs.map fun _ => (WRITE, 0)) ++ rest) hf rfl hk0 rfl rfl rfl rfl]
    have hd : decide ((0 : Byte) ≠ 0) = false := by decide
    rw [hd, ih n _ more rest rfl rfl rfl rfl ?_ rfl]
    · congr 1
      cases sigint <;> cases echo <;>
        simp [List.append_assoc, Nat.sub_sub, Nat.add_comm]
    · intro k h
      cases sigint with
      | none => simp at h
      | some k0 =>
        have := hk k0 rfl
        simp only [Option.map_some', Option.some.injEq] at h
        simp only [List.length_cons] at this
        omega

/-! ## Option parsing -/

theorem parseOpts_spec : ∀ (argv : List Opt) (v : Vars) (w : World), ParseOutcome argv v w := by
  intro argv
  induction argv with
  | nil => intro v w; right; simp [parseOpts]
  | cons o rest ih =>
    intro v w
    unfold ParseOutcome at ih ⊢
    have step : ∀ v1 : Vars, parseOpts (o :: rest) v w = parseOpts rest v1 w →
        (∀ t, o = Opt.track t → 1 ≤ t ∧ t ≤ 4) → (∀ n, o = Opt.baud n → validBaud n) →
        (v1.readRequested = true ↔ (v.readRequested = true ∨ o = Opt.read)) →
        (v1.writeRequested = true ↔ (v.writeRequested = true ∨ o = Opt.write)) →
        (v1.echo = true ↔ (v.echo = true ∨ o = Opt.echo)) →
        ParseOutcome (o :: rest) v w := by
      intro v1 he ht hb hr hw hec
      unfold ParseOutcome
      rw [he]
      rcases ih v1 w with ⟨rc, h1, h2⟩ | ⟨h1, h2, h3, h4, h5, h6⟩
      · left
        refine ⟨rc, h1, ?_⟩
        rcases h2 with h2 | ⟨h2, h3⟩
        · exact Or.inl h2
        · exact Or.inr ⟨h2, List.mem_cons_of_mem _ h3⟩
      · right
        refine ⟨h1, ?_, ?_, ?_, ?_, ?_⟩
        · intro t ht'
          rcases List.mem_cons.1 ht' with h | h
          · exact ht t h.symm
          · exact h2 t h
        · intro n hn
          rcases List.mem_cons.1 hn with h | h
          · exact hb n h.symm
          · exact h3 n h
        · rw [h4, hr, List.mem_cons]
          constructor
          · rintro ((h | h) | h)
            · exact Or.inl h
            · exact Or.inr (Or.inl h.symm)
            · exact Or.inr (Or.inr h)
          · rintro (h | h | h)
            · exact Or.inl (Or.inl h)
            · exact Or.inl (Or.inr h.symm)
            · exact Or.inr h
        · rw [h5, hw, List.mem_cons]
          constructor
          · rintro ((h | h) | h)
            · exact Or.inl h
            · exact Or.inr (Or.inl h.symm)
            · exact Or.inr (Or.inr h)
          · rintro (h | h | h)
            · exact Or.inl (Or.inl h)
            · exact Or.inl (Or.inr h.symm)
            · exact Or.inr h
        · rw [h6, hec, List.mem_cons]
          constructor
          · rintro ((h | h) | h)
            · exact Or.inl h
            · exact Or.inr (Or.inl h.symm)
            · exact Or.inr (Or.inr h)
          · rintro (h | h | h)
            · exact Or.inl (Or.inl h)
            · exact Or.inl (Or.inr h.symm)
            · exact Or.inr h
    cases o with
    | help => left; exact ⟨0, by simp [parseOpts], Or.inr ⟨rfl, List.mem_cons_self _ _⟩⟩
    | unknown => left; exact ⟨-1, by simp [parseOpts, LO8_SYNTAX_ERROR], Or.inl rfl⟩
    | device => exact step v (by simp [parseOpts]) (by simp) (by simp) (by simp) (by simp) (by simp)
    | seek =>
      exact step { v with seek := true } (by simp [parseOpts]) (by simp) (by simp) (by simp)
        (by simp) (by simp)
    | info =>
      exact step { v with info := true } (by simp [parseOpts]) (by simp) (by simp) (by simp)
        (by simp) (by simp)
    | read =>
      exact step { v with readRequested := true } (by simp [parseOpts]) (by simp) (by simp)
        (by simp) (by simp) (by simp)
    | write =>
      exact step { v with writeRequested := true } (by simp [parseOpts]) (by simp) (by simp)
        (by simp) (by simp) (by simp)
    | echo =>
      exact step { v with echo := true } (by simp [parseOpts]) (by simp) (by simp) (by simp)
        (by simp) (by simp)
    | baud n =>
      by_cases hv : validBaud n
      · have : ∃ sp, parseOpts (Opt.baud n :: rest) v w
            = parseOpts rest { v with baud_const := sp } w := by
          rcases hv with h | h | h | h | h | h <;> subst h
          · exact ⟨Speed.B4800, by simp [parseOpts]⟩
          · exact ⟨Speed.B9600, by simp [parseOpts]⟩
          · exact ⟨Speed.B19200, by simp [parseOpts]⟩
          · exact ⟨Speed.B38400, by simp [parseOpts]⟩
          · exact ⟨Speed.B57600, by simp [parseOpts]⟩
          · exact ⟨Speed.B115200, by simp [parseOpts]⟩
        obtain ⟨sp, hsp⟩ := this
        exact step { v with baud_const := sp } hsp (by simp)
          (by intro m hm; cases hm; exact hv) (by simp) (by simp) (by simp)
      · left
        simp only [validBaud, not_or] at hv
        obtain ⟨h1, h2, h3, h4, h5, h6⟩ := hv
        exact ⟨-1, by simp [parseOpts, h1, h2, h3, h4, h5, h6], Or.inl rfl⟩
    | track t =>
      by_cases hv : t = 1 ∨ t = 2 ∨ t = 3 ∨ t = 4
      · have : parseOpts (Opt.track t :: rest) v w
            = parseOpts rest { v with track := t - 1 } w := by
          rcases hv with h | h | h | h <;> subst h <;> simp [parseOpts]
        exact step { v with track := t - 1 } this
          (by intro m hm; cases hm; omega) (by simp) (by simp) (by simp) (by simp)
      · left
        simp only [not_or] at hv
        obtain ⟨h1, h2, h3, h4⟩ := hv
        exact ⟨-1, by simp [parseOpts, h1, h2, h3, h4], Or.inl rfl⟩

/-- What a call of `readLo8` that returns has read: a `read` failed and the
result is -1, or the bytes of the frame arrived, each after reads that
returned 0.  Nothing but the script of the link changes. -/
theorem readLo8Loop_inv (fuel : Nat) : ∀ (i : Nat) (b0 b1 : Byte) (w w' : World) (v : Int),
    readLo8Loop fuel i b0 b1 w = some (v, w') →
    w' = { w with reads := w'.reads } ∧
    ((v = -1 ∧ ∃ c, w.reads = c ++ w'.reads) ∨
     (i = 1 ∧ ∃ j b, w.reads = idle j ++ ReadRes.byte b :: w'.reads ∧
        v = packInt b0 b w.junk) ∨
     (i = 0 ∧ ∃ k j a b,
        w.reads = idle k ++ ReadRes.byte a :: (idle j ++ ReadRes.byte b :: w'.reads) ∧
        v = packInt a b w.junk) ∨
     2 ≤ i) := by
  induction fuel with
  | zero => intro i b0 b1 w w' v h; simp [readLo8Loop] at h
  | succ n ih =>
    intro i b0 b1 w w' v h
    unfold readLo8Loop at h
    cases hr : w.reads with
    | nil =>
      simp only [sysRead, hr] at h
      split at h
      · rename_i hi
        simp only [Option.some.injEq, Prod.mk.injEq] at h
        obtain ⟨_, rfl⟩ := h
        exact ⟨rfl, Or.inr (Or.inr (Or.inr (by omega)))⟩
      · have h1 := ih _ _ _ _ _ _ h
        rw [hr] at h1
        exact h1
    | cons x rest =>
      cases x with
      | err =>
        simp only [sysRead, hr, Option.some.injEq, Prod.mk.injEq] at h
        obtain ⟨rfl, rfl⟩ := h
        exact ⟨rfl, Or.inl ⟨rfl, [ReadRes.err], rfl⟩⟩
      | zero =>
        simp only [sysRead, hr] at h
        split at h
        · rename_i hi
          simp only [Option.some.injEq, Prod.mk.injEq] at h
          obtain ⟨_, rfl⟩ := h
          exact ⟨rfl, Or.inr (Or.inr (Or.inr (by omega)))⟩
        · obtain ⟨e, hc⟩ := ih _ _ _ _ _ _ h
          simp only at hc
          refine ⟨e, ?_⟩
          rcases hc with ⟨hv, c, hc⟩ | ⟨hi, j, b, hc, hv⟩ | ⟨hi, k, j, a, b, hc, hv⟩ | hi
          · exact Or.inl ⟨hv, ReadRes.zero :: c, by rw [hc]; rfl⟩
          · exact Or.inr (Or.inl ⟨hi, j + 1, b, by rw [hc]; rfl, hv⟩)
          · exact Or.inr (Or.inr (Or.inl ⟨hi, k + 1, j, a, b, by rw [hc]; rfl, hv⟩))
          · exact Or.inr (Or.inr (Or.inr hi))
      | byte b =>
        simp only [sysRead, hr] at h
        split at h
        · rename_i hi
          simp only [Option.some.injEq, Prod.mk.injEq] at h
          obtain ⟨rfl, rfl⟩ := h
          have hi1 : i = 1 := by omega
          subst hi1
          exact ⟨rfl, Or.inr (Or.inl ⟨rfl, 0, b, rfl, by simp⟩)⟩
        · rename_i hi
          obtain ⟨e, hc⟩ := ih _ _ _ _ _ _ h
          simp only at hc
          refine ⟨e, ?_⟩
          rcases hc with ⟨hv, c, hc⟩ | ⟨hi1, j, b', hc, hv⟩ | ⟨hi0, _⟩ | hi2
          · exact Or.inl ⟨hv, ReadRes.byte b :: c, by rw [hc]; rfl⟩
          · have hi0 : i = 0 := by omega
            subst hi0
            exact Or.inr (Or.inr (Or.inl ⟨rfl, 0, j, b, b', by rw [hc]; rfl, by simpa using hv⟩))
          · omega
          · exact Or.inr (Or.inr (Or.inr (by omega)))

/-- What an exchange that returns leaves behind, on any link: one `write` call
is used up, the frame is in the trace, and reads have been taken from the
front of the script.  For a command other than 255, a result other than -1
means that the `write` was accepted and that a frame `[cmd][s]` was read,
whose data byte is the result. -/
theorem sendLo8_inv (fuel : Nat) (cmd data : Byte) (w w' : World) (r : Int)
    (h : sendLo8 fuel cmd data w = some (r, w')) :
    w' = { w with writes := w.writes.tail, reads := w'.reads,
                  sent := w.sent ++ [(cmd, data)] } ∧
    (∃ c, w.reads = c ++ w'.reads) ∧
    (cmd ≠ 255 → r ≠ -1 → w.writes.headD 2 = 2 ∧ ∃ (i j : Nat) (s : Byte),
      w.reads = idle i ++ ReadRes.byte cmd :: (idle j ++ ReadRes.byte s :: w'.reads) ∧
      r = (s.val : Int)) := by
  simp only [sendLo8, sysWrite] at h
  split at h
  · simp only [Option.some.injEq, Prod.mk.injEq] at h
    obtain ⟨rfl, rfl⟩ := h
    exact ⟨rfl, ⟨[], rfl⟩, fun _ hr => absurd rfl hr⟩
  · rename_i hw
    have hw2 : w.writes.headD 2 = 2 := by simpa using hw
    cases hr : readLo8 fuel { w with writes := w.writes.tail, sent := w.sent ++ [(cmd, data)] } with
    | none => simp [hr] at h
    | some p =>
      obtain ⟨v, w2⟩ := p
      obtain ⟨e, hc⟩ := readLo8Loop_inv fuel 0 0 0 _ _ _ hr
      simp only at hc
      have hsuf : ∃ c, w.reads = c ++ w2.reads := by
        rcases hc with ⟨_, c, hc⟩ | ⟨hi, _⟩ | ⟨_, k, j, a, b, hc, _⟩ | hi
        · exact ⟨c, hc⟩
        · exact absurd hi (by decide)
        · exact ⟨idle k ++ ReadRes.byte a :: (idle j ++ [ReadRes.byte b]), by rw [hc]; simp⟩
        · exact absurd hi (by decide)
      simp only [hr] at h
      split at h
      · simp only [Option.some.injEq, Prod.mk.injEq] at h
        obtain ⟨rfl, rfl⟩ := h
        exact ⟨e, hsuf, fun _ hr => absurd rfl hr⟩
      · rename_i hb
        have hb0 : byte0 v = cmd := by simpa using hb
        simp only [Option.some.injEq, Prod.mk.injEq] at h
        obtain ⟨rfl, rfl⟩ := h
        refine ⟨e, hsuf, fun hcmd _ => ⟨hw2, ?_⟩⟩
        rcases hc with ⟨hv, _⟩ | ⟨hi, _⟩ | ⟨_, k, j, a, b, hc, hv⟩ | hi
        · rw [hv, byte0_neg_one] at hb0
          exact absurd hb0.symm hcmd
        · exact absurd hi (by decide)
        · rw [hv, byte0_packInt] at hb0
          subst hb0
          exact ⟨k, j, b, hc, by rw [hv, byte1_packInt]⟩
        · exact absurd hi (by decide)

/-! ## How `main` can return -/

theorem StepOk.refl (w : World) : StepOk w none w :=
  Or.inl ⟨rfl, [], [], fun f hf => by simp at hf, by simp, by simp, by simp⟩

/-- A step that changes neither the trace nor the link. -/
theorem StepOk.of_same {w w' : World} (hs : w'.sent = w.sent) (hw : w'.writes = w.writes)
    (hr : w'.reads = w.reads) : StepOk w none w' :=
  Or.inl ⟨rfl, [], [], fun f hf => by simp at hf, by simp [hs], by simp [hw], by simp [hr]⟩

theorem Benign.append {fs gs : List (Byte × Byte)} (h1 : Benign fs) (h2 : Benign gs) :
    Benign (fs ++ gs) := by
  intro f hf
  rcases List.mem_append.1 hf with h | h
  · exact h1 f h
  · exact h2 f h

theorem StepOk.trans {w w1 w2 : World} {r : Option Int}
    (h1 : StepOk w none w1) (h2 : StepOk w1 r w2) : StepOk w r w2 := by
  rcases h1 with ⟨_, fs1, c1, b1, e1, x1, r1⟩ | ⟨h, _⟩
  · rcases h2 with ⟨hr, fs2, c2, b2, e2, x2, r2⟩ | ⟨hr, fs2, b2, c, i, j, s, e2, a2, x2, r2, t2, cl⟩
    · refine Or.inl ⟨hr, fs1 ++ fs2, c1 ++ c2, b1.append b2, ?_, ?_, ?_⟩
      · rw [e2, e1, List.append_assoc]
      · rw [x2, x1, List.drop_drop, List.length_append, Nat.add_comm]
      · rw [r1, r2, List.append_assoc]
    · refine Or.inr ⟨hr, fs1 ++ fs2, b1.append b2, c1 ++ c, i, j, s, ?_, ?_, ?_, ?_, t2, cl⟩
      · rw [e2, e1]
        simp only [List.append_assoc]
      · rw [x1, List.drop_drop] at a2
        rw [List.length_append]
        exact a2
      · rw [x2, x1, List.drop_drop, List.length_append, Nat.add_assoc]
      · rw [r1, r2, List.append_assoc]
  · exact Option.noConfusion h

/-- One exchange of a benign command, whatever its result. -/
theorem exchange_stepOk (fuel : Nat) (cmd data : Byte) (w w' : World) (r : Int)
    (hc : cmd = GET_STATUS ∨ cmd = SET_TRACK ∨ cmd = SEEK ∨ cmd = RESET_EOT)
    (h : sendLo8 fuel cmd data w = some (r, w')) : StepOk w none w' := by
  obtain ⟨e, ⟨c, hr⟩, _⟩ := sendLo8_inv fuel cmd data w w' r h
  refine Or.inl ⟨rfl, [(cmd, data)], c, ?_, ?_, ?_, hr⟩
  · intro f hf
    simp only [List.mem_singleton] at hf
    subst hf
    exact hc
  · rw [e]
  · rw [e]
    simp

theorem tapeCheck_stepOk (fuel : Nat) (w w' : World) (r : Option Int)
    (h : tapeCheck fuel w = some (r, w')) : StepOk w r w' := by
  obtain ⟨st, w1, hs, hc⟩ := tapeCheck_cases _ _ _ _ h
  rcases hc with ⟨hb, hr, hw⟩ | ⟨_, hr, hw⟩
  · obtain ⟨e, _, hinv⟩ := sendLo8_inv fuel GET_STATUS 0 w w1 st hs
    have hst : st ≠ -1 := by
      intro h1
      rw [h1, bitAnd_neg_one_tape] at hb
      exact absurd hb (by decide)
    obtain ⟨ha, i, j, s, hrd, hv⟩ := hinv (by decide) hst
    rw [hv] at hb
    subst hw
    refine Or.inr ⟨hr, [], fun f hf => by simp at hf, [], i, j, s, ?_, ?_, ?_, ?_,
      (bitAnd_tape s).1 hb, rfl⟩
    · rw [e]
      simp [close]
    · simpa using ha
    · rw [e]
      simp [close]
    · simpa [close] using hrd
  · subst hw hr
    exact exchange_stepOk fuel GET_STATUS 0 w w' st (Or.inl rfl) hs

theorem andThen_stepOk (w w' : World) (r : Option Int)
    (s : Option (Option Int × World)) (k : World → Option (Option Int × World))
    (hs : ∀ r1 w1, s = some (r1, w1) → StepOk w r1 w1)
    (hk : ∀ w1 r2 w2, k w1 = some (r2, w2) → StepOk w1 r2 w2)
    (h : andThen s k = some (r, w')) : StepOk w r w' := by
  cases s with
  | none => simp [andThen] at h
  | some p =>
    obtain ⟨r1, w1⟩ := p
    cases r1 with
    | some rc =>
      simp only [andThen, Option.some.injEq, Prod.mk.injEq] at h
      obtain ⟨h1, h2⟩ := h
      subst h1 h2
      exact hs _ _ rfl
    | none =>
      simp only [andThen] at h
      exact StepOk.trans (hs _ _ rfl) (hk _ _ _ h)

theorem dropResult_stepOk (fuel : Nat) (cmd data : Byte) (w w' : World) (r : Option Int)
    (hc : cmd = GET_STATUS ∨ cmd = SET_TRACK ∨ cmd = SEEK ∨ cmd = RESET_EOT)
    (h : noReturn ((sendLo8 fuel cmd data w).map fun p => p.2) = some (r, w')) :
    StepOk w r w' := by
  cases hs : sendLo8 fuel cmd data w with
  | none => simp [hs, noReturn] at h
  | some p =>
    obtain ⟨x, w1⟩ := p
    simp only [hs, noReturn, Option.map_some', Option.some.injEq, Prod.mk.injEq] at h
    obtain ⟨h1, h2⟩ := h
    subst h1 h2
    exact exchange_stepOk fuel cmd data w w1 x hc hs

theorem trackTask_stepOk (fuel : Nat) (v : Vars) (w w' : World) (r : Option Int)
    (h : trackTask fuel v w = some (r, w')) : StepOk w r w' := by
  unfold trackTask at h
  split at h
  · exact andThen_stepOk w w' r _ _ (fun r1 w1 h1 => tapeCheck_stepOk _ _ _ _ h1)
      (fun w1 r2 w2 h2 => dropResult_stepOk fuel SET_TRACK _ w1 w2 r2 (Or.inr (Or.inl rfl)) h2) h
  · simp only [Option.some.injEq, Prod.mk.injEq] at h
    obtain ⟨h1, h2⟩ := h
    subst h1 h2
    exact StepOk.refl w

theorem seekTask_stepOk (fuel : Nat) (v : Vars) (w w' : World) (r : Option Int)
    (h : seekTask fuel v w = some (r, w')) : StepOk w r w' := by
  unfold seekTask at h
  split at h
  · exact andThen_stepOk w w' r _ _ (fun r1 w1 h1 => tapeCheck_stepOk _ _ _ _ h1)
      (fun w1 r2 w2 h2 => dropResult_stepOk fuel SEEK _ w1 w2 r2 (Or.inr (Or.inr (Or.inl rfl))) h2)
      h
  · simp only [Option.some.injEq, Prod.mk.injEq] at h
    obtain ⟨h1, h2⟩ := h
    subst h1 h2
    exact StepOk.refl w

/-- A `GET_STATUS` wrapper, whatever it makes of the result. -/
theorem statusQuery_stepOk (fuel : Nat) (data : Byte) (g : Int → Int) (w w' : World) (x : Int)
    (h : (sendLo8 fuel GET_STATUS data w).map (fun r => (g r.1, r.2)) = some (x, w')) :
    StepOk w none w' := by
  cases hs : sendLo8 fuel GET_STATUS data w with
  | none => simp [hs] at h
  | some p =>
    obtain ⟨r, w1⟩ := p
    simp only [hs, Option.map_some', Option.some.injEq, Prod.mk.injEq] at h
    rw [← h.2]
    exact exchange_stepOk fuel GET_STATUS data w w1 r (Or.inl rfl) hs

theorem infoTask_stepOk (fuel : Nat) (v : Vars) (w w' : World) (r : Option Int)
    (h : noReturn (infoTask fuel v w) = some (r, w')) : StepOk w r w' := by
  cases hi : infoTask fuel v w with
  | none => simp [hi, noReturn] at h
  | some w1 =>
    simp only [hi, noReturn, Option.map_some', Option.some.injEq, Prod.mk.injEq] at h
    obtain ⟨h1, h2⟩ := h
    subst h1 h2
    unfold infoTask at hi
    split at hi
    · split at hi
      · exact Option.noConfusion hi
      · rename_i t w2 h1
        dsimp only at hi
        split at hi
        · exact Option.noConfusion hi
        · rename_i p w3 h2
          split at hi
          · exact Option.noConfusion hi
          · rename_i e w5 h3
            simp only [Option.some.injEq] at hi
            subst hi
            have s1 := statusQuery_stepOk fuel 0 (fun x => bitAnd x 0x03) _ _ _ h1
            have s2 := statusQuery_stepOk fuel 0 (fun x => bitAnd x 0x08) _ _ _ h2
            have s3 := statusQuery_stepOk fuel 1 (fun x => bitAnd x 0x04) _ _ _ h3
            exact StepOk.trans s1 (StepOk.trans (StepOk.of_same rfl rfl rfl)
              (StepOk.trans s2 (StepOk.trans (StepOk.of_same rfl rfl rfl)
                (StepOk.trans s3 (StepOk.of_same rfl rfl rfl)))))
    · cases hs : sendLo8 fuel RESET_EOT 0 w with
      | none => simp [resetEOT, hs] at hi
      | some p =>
        obtain ⟨x, w2⟩ := p
        simp only [resetEOT, hs, Option.map_some', Option.some.injEq] at hi
        subst hi
        exact exchange_stepOk fuel RESET_EOT 0 w w2 x (Or.inr (Or.inr (Or.inr rfl))) hs

theorem earlyTasks_stepOk (fuel : Nat) (v : Vars) (w w' : World) (r : Option Int)
    (h : earlyTasks fuel v w = some (r, w')) : StepOk w r w' :=
  andThen_stepOk w w' r _ _ (fun _ _ h1 => trackTask_stepOk _ _ _ _ _ h1)
    (fun w1 r2 w2 h2 => andThen_stepOk w1 w2 r2 _ _
      (fun _ _ h1 => seekTask_stepOk _ _ _ _ _ h1)
      (fun _ _ _ h3 => infoTask_stepOk _ _ _ _ _ h3) h2) h

/-- A request that starts with the tape check returns from `main` only there. -/
theorem afterTapeCheck_return (fuel : Nat) (w w' : World) (rc : Int) (g : World → Option World)
    (h : andThen (tapeCheck fuel w) (fun w1 => noReturn (g w1)) = some (some rc, w')) :
    tapeCheck fuel w = some (some rc, w') := by
  cases ht : tapeCheck fuel w with
  | none => simp [ht, andThen] at h
  | some p =>
    obtain ⟨r1, w1⟩ := p
    cases r1 with
    | some rc1 => simpa [ht, andThen] using h
    | none =>
      simp only [ht, andThen, noReturn] at h
      cases hg : g w1 with
      | none => simp [hg] at h
      | some w2 => simp [hg] at h

theorem readTask_return (fuel : Nat) (v : Vars) (w w' : World) (rc : Int)
    (h : readTask fuel v w = some (some rc, w')) : StepOk w (some rc) w' := by
  unfold readTask at h
  split at h
  · exact tapeCheck_stepOk _ _ _ _ (afterTapeCheck_return fuel w w' rc _ h)
  · simp at h

theorem writeTask_return (fuel : Nat) (v : Vars) (w w' : World) (rc : Int)
    (h : writeTask fuel v w = some (some rc, w')) : StepOk w (some rc) w' := by
  unfold writeTask at h
  split at h
  · exact tapeCheck_stepOk _ _ _ _ (afterTapeCheck_return fuel w w' rc _ h)
  · simp at h

theorem runDevice_return (fuel : Nat) (v : Vars) (w w' : World) (rc : Int)
    (hx : ¬ (v.readRequested = true ∧ v.writeRequested = true))
    (h : runDevice fuel v w = some (some rc, w')) : StepOk w (some rc) w' := by
  unfold runDevice at h
  cases he : earlyTasks fuel v w with
  | none => simp [he, andThen] at h
  | some p =>
    obtain ⟨r1, w3⟩ := p
    have s1 := earlyTasks_stepOk _ _ _ _ _ he
    cases r1 with
    | some rc1 =>
      simp only [he, andThen, Option.some.injEq, Prod.mk.injEq] at h
      obtain ⟨h1, h2⟩ := h
      subst h1 h2
      exact s1
    | none =>
      simp only [he, andThen] at h
      have s2 : StepOk w none { w3 with interrupt := false } :=
        StepOk.trans s1 (StepOk.of_same rfl rfl rfl)
      cases hr : readTask fuel v { w3 with interrupt := false } with
      | none => simp [hr] at h
      | some q =>
        obtain ⟨r2, w4⟩ := q
        cases r2 with
        | some rc2 =>
          simp only [hr, Option.some.injEq, Prod.mk.injEq] at h
          obtain ⟨h1, h2⟩ := h
          subst h1 h2
          exact StepOk.trans s2 (readTask_return _ _ _ _ _ hr)
        | none =>
          simp only [hr] at h
          by_cases hrd : v.readRequested = true
          · have hwr : v.writeRequested = false := by
              cases hq : v.writeRequested
              · rfl
              · exact absurd ⟨hrd, hq⟩ hx
            simp [writeTask, hwr] at h
          · have hw4 : w4 = { w3 with interrupt := false } := by
              have hrd' : v.readRequested = false := by simpa using hrd
              simp only [readTask, hrd', Bool.false_eq_true, if_false, Option.some.injEq,
                Prod.mk.injEq, true_and] at hr
              exact hr.symm
            subst hw4
            exact StepOk.trans s2 (writeTask_return _ _ _ _ _ h)

/-- The ways `main` returns: with 0; with -1, before any frame is sent; or
with `LO8_NO_TAPE`, from a tape check of the run: after benign frames `fs`
the frame `GET_STATUS 0` was sent and accepted, and the response read to it
is `[GET_STATUS][s]` with bit 3 of `s` clear. -/
theorem main_returns (fuel : Nat) (argv : List Opt) (w w' : World) (rc : Int)
    (h : main fuel argv w = some (rc, w')) :
    rc = 0 ∨ (rc = -1 ∧ w'.sent = w.sent) ∨
    (rc = LO8_NO_TAPE ∧ ∃ fs, Benign fs ∧ NoTapeExit w w' fs) := by
  unfold main at h
  rcases parseOpts_spec argv Vars.defaults w with ⟨rc0, h1, h2⟩ | ⟨h1, _, _, _, _, _⟩
  · rw [h1] at h
    simp only [Option.some.injEq, Prod.mk.injEq] at h
    obtain ⟨e1, e2⟩ := h
    subst e1 e2
    rcases h2 with h2 | ⟨h2, _⟩
    · exact Or.inr (Or.inl ⟨h2, rfl⟩)
    · exact Or.inl h2
  · rw [h1] at h
    generalize (parseOpts argv Vars.defaults w).2.1 = v at h
    dsimp only at h
    split at h
    · simp only [Option.some.injEq, Prod.mk.injEq, LO8_SYNTAX_ERROR] at h
      exact Or.inr (Or.inl ⟨h.1.symm, by rw [← h.2]; rfl⟩)
    · rename_i hvalid
      split at h
      · simp only [Option.some.injEq, Prod.mk.injEq] at h
        exact Or.inr (Or.inl ⟨h.1.symm, by rw [← h.2]⟩)
      · split at h
        · exact Option.noConfusion h
        · rename_i rc1 w3 hrun
          simp only [Option.some.injEq, Prod.mk.injEq] at h
          obtain ⟨e1, e2⟩ := h
          subst e1 e2
          have hx : ¬ (v.readRequested = true ∧ v.writeRequested = true) := by
            rintro ⟨a, b⟩
            apply hvalid
            simp [a, b]
          rcases runDevice_return fuel v _ _ _ hx hrun with ⟨c, _⟩ | ⟨c1, fs, b, c2⟩
          · exact Option.noConfusion c
          · simp only [Option.some.injEq] at c1
            exact Or.inr (Or.inr ⟨c1, fs, b, c2⟩)
        · simp only [Option.some.injEq, Prod.mk.injEq] at h
          exact Or.inl h.1.symm

/-! ## C4: no tape -/

/-- When the run reaches a read or write request and the status byte answered
to its tape check has bit 3 clear, `main` returns `LO8_NO_TAPE`; the check's
`GET_STATUS` is the last frame sent. -/
theorem main_no_tape (fuel : Nat) (argv : List Opt) (w w3 : World) (v : Vars) (s : Byte)
    (rest : List ReadRes)
    (hp : parseOpts argv Vars.defaults w = (none, v, w))
    (hvalid : ((v.readRequested && v.writeRequested) || (!v.writeRequested && v.echo)) = false)
    (hopen : w.openFails = false)
    (hreq : v.readRequested = true ∨ v.writeRequested = true)
    (he : earlyTasks fuel v { w with opened := true, speed := some v.baud_const }
      = some (none, w3))
    (hw : w3.writes = []) (hr : w3.reads = frame GET_STATUS s ++ rest)
    (hs : s.val.testBit 3 = false) (hf : 2 ≤ fuel) :
    main fuel argv w = some (LO8_NO_TAPE,
      close { w3 with interrupt := false, reads := rest,
                      sent := w3.sent ++ [(GET_STATUS, 0)] }) := by
  have ht := tapeCheck_absent fuel s { w3 with interrupt := false } rest hw hr hf hs
  simp only at ht
  have hrun : runDevice fuel v { w with opened := true, speed := some v.baud_const }
      = some (some LO8_NO_TAPE,
          close { w3 with interrupt := false, reads := rest,
                          sent := w3.sent ++ [(GET_STATUS, 0)] }) := by
    unfold runDevice
    rw [he]
    by_cases hrd : v.readRequested = true
    · simp only [andThen, readTask, hrd, if_true, ht]
    · have hrd' : v.readRequested = false := by simpa using hrd
      have hwr : v.writeRequested = true := by
        rcases hreq with h | h
        · exact absurd h hrd
        · exact h
      simp only [andThen, readTask, hrd', Bool.false_eq_true, if_false, writeTask, hwr, if_true, ht]
  unfold main
  rw [hp]
  simp only [hvalid, Bool.false_eq_true, if_false, hrun]
  simp only [hopen, Bool.false_eq_true, if_false]

/-- C4. NoTape: when the run of `main` reaches a read or write request and
the `GET_STATUS` response of its tape check has bit 3 clear, `main` returns
`LO8_NO_TAPE` right after that frame.  Whenever `main` returns
`LO8_NO_TAPE` it does so from a tape check of that run that found no tape:
the last frame the run sent is `GET_STATUS 0`, the `write` call of that
frame was accepted (it is call number `fs.length` of the run, `fs` being the
frames sent before), and the last two bytes the run read from the link are
the response `[GET_STATUS][s]` to it, with bit 3 of `s` clear (`c` is what
the run read before, reads that returned 0 may precede either byte, and
what is left of the script is untouched); the device is closed; and the
frames sent in the run are benign ones (`GET_STATUS`, `SET_TRACK`, `SEEK`,
`RESET_EOT`): no `START_MOTOR`, no `START_WRITE`.  `main` returns 0, -1 or
`LO8_NO_TAPE` = -2, which differs from `LO8_SYNTAX_ERROR` = -1. -/
theorem no_tape_exit :
    (∀ (fuel : Nat) (argv : List Opt) (w w3 : World) (v : Vars) (s : Byte)
        (rest : List ReadRes),
      parseOpts argv Vars.defaults w = (none, v, w) →
      ((v.readRequested && v.writeRequested) || (!v.writeRequested && v.echo)) = false →
      w.openFails = false →
      (v.readRequested = true ∨ v.writeRequested = true) →
      earlyTasks fuel v { w with opened := true, speed := some v.baud_const }
        = some (none, w3) →
      w3.writes = [] → w3.reads = frame GET_STATUS s ++ rest →
      s.val.testBit 3 = false → 2 ≤ fuel →
      main fuel argv w = some (LO8_NO_TAPE,
        close { w3 with interrupt := false, reads := rest,
                        sent := w3.sent ++ [(GET_STATUS, 0)] })) ∧
    (∀ (fuel : Nat) (argv : List Opt) (w w' : World),
      main fuel argv w = some (LO8_NO_TAPE, w') →
      ∃ (fs : List (Byte × Byte)) (c : List ReadRes) (i j : Nat) (s : Byte),
        w'.sent = w.sent ++ (fs ++ [(GET_STATUS, 0)]) ∧
        Benign (fs ++ [(GET_STATUS, 0)]) ∧
        (∀ f ∈ fs ++ [(GET_STATUS, 0)], f.1 ≠ START_MOTOR ∧ f.1 ≠ START_WRITE) ∧
        (w.writes.drop fs.length).headD 2 = 2 ∧
        w'.writes = w.writes.drop (fs.length + 1) ∧
        w.reads = c ++ (idle i ++ ReadRes.byte GET_STATUS ::
          (idle j ++ ReadRes.byte s :: w'.reads)) ∧
        s.val.testBit 3 = false ∧ w'.closed = true) ∧
    (∀ (fuel : Nat) (argv : List Opt) (w w' : World) (rc : Int),
      main fuel argv w = some (rc, w') → rc = 0 ∨ rc = -1 ∨ rc = LO8_NO_TAPE) ∧
    LO8_NO_TAPE = -2 ∧ LO8_SYNTAX_ERROR = -1 ∧ LO8_NO_TAPE ≠ LO8_SYNTAX_ERROR := by
  refine ⟨main_no_tape, ?_, ?_, rfl, rfl, by decide⟩
  · intro fuel argv w w' h
    rcases main_returns fuel argv w w' _ h with h0 | ⟨h1, _⟩ | ⟨_, fs, b, c, i, j, s, e, a, x, r, t, cl⟩
    · exact absurd h0 (by decide)
    · exact absurd h1 (by decide)
    · have hb : Benign (fs ++ [(GET_STATUS, 0)]) := by
        intro f hf
        rcases List.mem_append.1 hf with h | h
        · exact b f h
        · simp only [List.mem_singleton] at h
          subst h
          exact Or.inl rfl
      refine ⟨fs, c, i, j, s, by rw [e, List.append_assoc], hb, ?_, a, x, r, t, cl⟩
      intro f hf
      rcases hb f hf with h | h | h | h <;> rw [h] <;> decide
  · intro fuel argv w w' rc h
    rcases main_returns fuel argv w w' rc h with h0 | ⟨h1, _⟩ | ⟨h2, _⟩
    · exact Or.inl h0
    · exact Or.inr (Or.inl h1)
    · exact Or.inr (Or.inr h2)

/-- C4, at a read request and at a write request answered with the status
byte 0 (no tape): `main` returns -2 after `RESET_EOT` and `GET_STATUS`. -/
theorem no_tape_exit_witness :
    main 2 [Opt.read] (World.init (frame RESET_EOT 0 ++ frame GET_STATUS 0) [])
      = some (-2, { World.init [] [] with
          opened := true, closed := true, speed := some Speed.B9600,
          sent := [(RESET_EOT, 0), (GET_STATUS, 0)] }) ∧
    main 2 [Opt.write] (World.init (frame RESET_EOT 0 ++ frame GET_STATUS 0) [0x10])
      = some (-2, { World.init [] [0x10] with
          opened := true, closed := true, speed := some Speed.B9600,
          sent := [(RESET_EOT, 0), (GET_STATUS, 0)] }) := by
  have h1 := no_tape_exit.1 2 [Opt.read]
    (World.init (frame RESET_EOT 0 ++ frame GET_STATUS 0) [])
    { World.init (frame GET_STATUS 0) [] with
        opened := true, speed := some Speed.B9600, sent := [(RESET_EOT, 0)] }
    { Vars.defaults with readRequested := true } 0 [] rfl rfl rfl (Or.inl rfl) (by decide)
    rfl rfl (by decide) (by decide)
  have h2 := no_tape_exit.1 2 [Opt.write]
    (World.init (frame RESET_EOT 0 ++ frame GET_STATUS 0) [0x10])
    { World.init (frame GET_STATUS 0) [0x10] with
        opened := true, speed := some Speed.B9600, sent := [(RESET_EOT, 0)] }
    { Vars.defaults with writeRequested := true } 0 [] rfl rfl rfl (Or.inr rfl) (by decide)
    rfl rfl (by decide) (by decide)
  rw [h1, h2]
  decide

/-! ## C5: cancellation -/

/-- The read request when SIGINT arrives after the frames `pre` have been
read: the loop leaves at the next evaluation of its condition, `STOP_MOTOR`
follows, and exactly the frames `pre` and the two responses have been read. -/
theorem readTask_cancel (fuel : Nat) (v : Vars) (w : World) (s a b c d : Byte)
    (pre : List (Byte × Byte)) (rest : List ReadRes)
    (hv : v.readRequested = true) (hw : w.writes = []) (hsig : w.sigint = some pre.length)
    (hi : w.interrupt = false) (hs : s.val.testBit 3 = true)
    (hpre : ∀ f ∈ pre, f.1 ≠ DATA_EOT)
    (hr : w.reads = frame GET_STATUS s ++ (frame a b ++ (frames pre ++ (frame c d ++ rest))))
    (hf : pre.length + 2 ≤ fuel) :
    readTask fuel v w = some (none,
      { w with reads := rest, sigint := none, interrupt := true,
               sent := w.sent ++ [(GET_STATUS, 0), (START_MOTOR, 0), (STOP_MOTOR, 0)],
               stdout := w.stdout ++ (dataBytes pre).map OutEv.putc }) := by
  have hf2 : 2 ≤ fuel := by omega
  obtain ⟨n, rfl⟩ : ∃ n, fuel = pre.length + (n + 1) := ⟨fuel - (pre.length + 1), by omega⟩
  obtain ⟨openFails, reads, writes, junk, stdin, stdinEof, sigint, interrupt, opened, closed,
    speed, sent, stdout⟩ := w
  simp only at hw hsig hi hr
  subst hw hsig hi hr
  have h1 := tapeCheck_present (pre.length + (n + 1)) s
    ⟨openFails, frame GET_STATUS s ++ (frame a b ++ (frames pre ++ (frame c d ++ rest))), [],
      junk, stdin, stdinEof, some pre.length, false, opened, closed, speed, sent, stdout⟩
    _ rfl rfl hf2 hs
  have h2 := sendLo8_world (pre.length + (n + 1)) START_MOTOR 0 a b
    ⟨openFails, frame a b ++ (frames pre ++ (frame c d ++ rest)), [],
      junk, stdin, stdinEof, some pre.length, false, opened, closed, speed,
      sent ++ [(GET_STATUS, 0)], stdout⟩ _ rfl rfl hf2
  have h3 := readLoop_frames (pre.length + (n + 1)) hf2 pre (n + 1)
    ⟨openFails, frames pre ++ (frame c d ++ rest), [],
      junk, stdin, stdinEof, some pre.length, false, opened, closed, speed,
      sent ++ [(GET_STATUS, 0)] ++ [(START_MOTOR, 0)], stdout⟩
    (frame c d ++ rest) hpre rfl rfl (by intro k hk; cases hk; exact Nat.le_refl _)
  have h4 := readLoop_cancel (pre.length + (n + 1)) n false
    ⟨openFails, frame c d ++ rest, [],
      junk, stdin, stdinEof, some 0, false, opened, closed, speed,
      sent ++ [(GET_STATUS, 0)] ++ [(START_MOTOR, 0)],
      stdout ++ (dataBytes pre).map OutEv.putc⟩ rfl
  have h5 := sendLo8_world (pre.length + (n + 1)) STOP_MOTOR 0 c d
    ⟨openFails, frame c d ++ rest, [],
      junk, stdin, stdinEof, none, true, opened, closed, speed,
      sent ++ [(GET_STATUS, 0)] ++ [(START_MOTOR, 0)],
      stdout ++ (dataBytes pre).map OutEv.putc⟩ rest rfl rfl hf2
  simp only [Option.map_some', Nat.sub_self] at h1 h2 h3 h4 h5
  simp only [readTask, hv, if_true, h1, andThen, startMotor, h2, Option.bind, h3, h4,
    stopMotor, h5, noReturn, Option.map_some']
  simp

/-- The write request when SIGINT arrives after the bytes `bs` have been
written, each answered with 0: the loop leaves at the next evaluation of its
condition, `STOP_WRITE` follows, and exactly the responses to the frames
sent have been read. -/
theorem writeTask_cancel (fuel : Nat) (v : Vars) (w : World) (s a b c d : Byte)
    (bs more : List Byte) (rest : List ReadRes)
    (hv : v.writeRequested = true) (hw : w.writes = []) (hsig : w.sigint = some bs.length)
    (hi : w.interrupt = false) (heof : w.stdinEof = false) (hin : w.stdin = bs ++ more)
    (hs : s.val.testBit 3 = true)
    (hr : w.reads = frame GET_STATUS s ++ (frame a b ++
      (frames (bs.map fun _ => (WRITE, 0)) ++ (frame c d ++ rest))))
    (hf : bs.length + 2 ≤ fuel) :
    writeTask fuel v w = some (none,
      { w with stdin := more, reads := rest, sigint := none, interrupt := true,
               sent := w.sent ++ [(GET_STATUS, 0), (START_WRITE, 0)] ++
                 (bs.map fun x => (WRITE, x)) ++ [(STOP_WRITE, 0)],
               stdout := w.stdout ++ (if v.echo then bs.map OutEv.putc else []) }) := by
  have hf2 : 2 ≤ fuel := by omega
  obtain ⟨n, rfl⟩ : ∃ n, fuel = bs.length + (n + 1) := ⟨fuel - (bs.length + 1), by omega⟩
  obtain ⟨openFails, reads, writes, junk, stdin, stdinEof, sigint, interrupt, opened, closed,
    speed, sent, stdout⟩ := w
  simp only at hw hsig hi heof hin hr
  subst hw hsig hi heof hin hr
  have h1 := tapeCheck_present (bs.length + (n + 1)) s
    ⟨openFails, frame GET_STATUS s ++ (frame a b ++
        (frames (bs.map fun _ => (WRITE, 0)) ++ (frame c d ++ rest))), [],
      junk, bs ++ more, false, some bs.length, false, opened, closed, speed, sent, stdout⟩
    _ rfl rfl hf2 hs
  have h2 := sendLo8_world (bs.length + (n + 1)) START_WRITE 0 a b
    ⟨openFails, frame a b ++ (frames (bs.map fun _ => (WRITE, 0)) ++ (frame c d ++ rest)), [],
      junk, bs ++ more, false, some bs.length, false, opened, closed, speed,
      sent ++ [(GET_STATUS, 0)], stdout⟩ _ rfl rfl hf2
  have h3 := writeLoop_zeros (bs.length + (n + 1)) v.echo hf2 bs (n + 1)
    ⟨openFails, frames (bs.map fun _ => (WRITE, 0)) ++ (frame c d ++ rest), [],
      junk, bs ++ more, false, some bs.length, false, opened, closed, speed,
      sent ++ [(GET_STATUS, 0)] ++ [(START_WRITE, 0)], stdout⟩
    more (frame c d ++ rest) rfl rfl rfl rfl (by intro k hk; cases hk; exact Nat.le_refl _) rfl
  have h4 := writeLoop_cancel (bs.length + (n + 1)) n v.echo false
    ⟨openFails, frame c d ++ rest, [],
      junk, more, false, some 0, false, opened, closed, speed,
      sent ++ [(GET_STATUS, 0)] ++ [(START_WRITE, 0)] ++ bs.map (fun x => (WRITE, x)),
      stdout ++ (if v.echo then bs.map OutEv.putc else [])⟩ rfl
  have h5 := sendLo8_world (bs.length + (n + 1)) STOP_WRITE 0 c d
    ⟨openFails, frame c d ++ rest, [],
      junk, more, false, none, true, opened, closed, speed,
      sent ++ [(GET_STATUS, 0)] ++ [(START_WRITE, 0)] ++ bs.map (fun x => (WRITE, x)),
      stdout ++ (if v.echo then bs.map OutEv.putc else [])⟩ rest rfl rfl hf2
  simp only [Option.map_some', Nat.sub_self] at h1 h2 h3 h4 h5
  simp only [writeTask, hv, if_true, h1, andThen, startWrite, h2, Option.bind, h3, h4,
    stopWrite, h5, noReturn, Option.map_some']
  simp

/-- C5. Guaranteed cleanup.  Whenever the read request returns after
`START_MOTOR` was issued, whatever the link delivered and whenever the signal
arrived, exactly one `STOP_MOTOR` has been sent, as the last frame (the loop
itself sends none); whenever the write request returns after `START_WRITE`,
`WRITE` frames only and then exactly one `STOP_WRITE`, the last frame, have
been sent.  The requests do return on each way out of their loop: the read
request when `DATA_EOT` is received or SIGINT has arrived, the write request
at end-of-tape, at the end of the input or when SIGINT has arrived.  The
cancellation flag is looked at only when a loop condition is evaluated: when
SIGINT arrives after `k` iterations, the frames of these `k` iterations have
been read whole (`rest` is untouched) and every `WRITE` sent has had its
response read. -/
theorem cleanup_on_every_exit :
    (∀ (fuel : Nat) (v : Vars) (w w' : World) (r : Option Int),
      v.readRequested = true → readTask fuel v w = some (r, w') →
      (r = some LO8_NO_TAPE ∧ w'.sent = w.sent ++ [(GET_STATUS, 0)]) ∨
      (r = none ∧
        w'.sent = w.sent ++ [(GET_STATUS, 0), (START_MOTOR, 0), (STOP_MOTOR, 0)])) ∧
    (∀ (fuel : Nat) (v : Vars) (w w' : World) (r : Option Int),
      v.writeRequested = true → writeTask fuel v w = some (r, w') →
      (r = some LO8_NO_TAPE ∧ w'.sent = w.sent ++ [(GET_STATUS, 0)]) ∨
      (r = none ∧ ∃ bs : List Byte,
        w'.sent = w.sent ++ [(GET_STATUS, 0), (START_WRITE, 0)] ++
          (bs.map fun x => (WRITE, x)) ++ [(STOP_WRITE, 0)])) ∧
    (∀ (fuel : Nat) (v : Vars) (w : World) (s a b c d : Byte) (pre : List (Byte × Byte))
        (rest : List ReadRes),
      v.readRequested = true → w.writes = [] → w.sigint = some pre.length →
      w.interrupt = false → s.val.testBit 3 = true → (∀ f ∈ pre, f.1 ≠ DATA_EOT) →
      w.reads = frame GET_STATUS s ++ (frame a b ++ (frames pre ++ (frame c d ++ rest))) →
      pre.length + 2 ≤ fuel →
      readTask fuel v w = some (none,
        { w with reads := rest, sigint := none, interrupt := true,
                 sent := w.sent ++ [(GET_STATUS, 0), (START_MOTOR, 0), (STOP_MOTOR, 0)],
                 stdout := w.stdout ++ (dataBytes pre).map OutEv.putc })) ∧
    (∀ (fuel : Nat) (v : Vars) (w : World) (s a b c d : Byte) (bs more : List Byte)
        (rest : List ReadRes),
      v.writeRequested = true → w.writes = [] → w.sigint = some bs.length →
      w.interrupt = false → w.stdinEof = false → w.stdin = bs ++ more →
      s.val.testBit 3 = true →
      w.reads = frame GET_STATUS s ++ (frame a b ++
        (frames (bs.map fun _ => (WRITE, 0)) ++ (frame c d ++ rest))) →
      bs.length + 2 ≤ fuel →
      writeTask fuel v w = some (none,
        { w with stdin := more, reads := rest, sigint := none, interrupt := true,
                 sent := w.sent ++ [(GET_STATUS, 0), (START_WRITE, 0)] ++
                   (bs.map fun x => (WRITE, x)) ++ [(STOP_WRITE, 0)],
                 stdout := w.stdout ++ (if v.echo then bs.map OutEv.putc else []) })) ∧
    (∀ (fuel : Nat) (v : Vars) (w : World) (s x a b c d : Byte) (pre : List (Byte × Byte))
        (rest : List ReadRes),
      v.readRequested = true → w.writes = [] → w.sigint = none →
      w.interrupt = false → s.val.testBit 3 = true → (∀ f ∈ pre, f.1 ≠ DATA_EOT) →
      w.reads = frame GET_STATUS s ++ (frame a b ++ (frames pre ++
        (frame DATA_EOT x ++ (frame c d ++ rest)))) →
      pre.length + 2 ≤ fuel →
      readTask fuel v w = some (none,
        { w with reads := rest,
                 sent := w.sent ++ [(GET_STATUS, 0), (START_MOTOR, 0), (STOP_MOTOR, 0)],
                 stdout := w.stdout ++ (dataBytes pre ++ [x]).map OutEv.putc })) ∧
    (∀ (fuel : Nat) (v : Vars) (w : World) (s a b c d : Byte) (inp es : List Byte)
        (rest : List ReadRes),
      v.writeRequested = true → w.writes = [] → w.sigint = none →
      w.interrupt = false → w.stdinEof = false → w.stdin = inp →
      es.length = inp.length → s.val.testBit 3 = true →
      w.reads = frame GET_STATUS s ++ (frame a b ++
        (frames ((written inp es).map fun q => (WRITE, q.2)) ++ (frame c d ++ rest))) →
      inp.length + 2 ≤ fuel →
      writeTask fuel v w = some (none,
        { w with stdin := inp.drop (written inp es).length,
                 stdinEof := !(inp.zip es).any reportsEot,
                 reads := rest,
                 sent := w.sent ++ [(GET_STATUS, 0), (START_WRITE, 0)] ++
                   ((written inp es).map fun q => (WRITE, q.1)) ++ [(STOP_WRITE, 0)],
                 stdout := w.stdout ++
                   (if v.echo then (written inp es).map fun q => OutEv.putc q.1 else []) })) :=
  ⟨readTask_sent, writeTask_sent, readTask_cancel, writeTask_cancel, readTask_eot,
    writeTask_done⟩

/-- C5, at a read request cancelled between its first and its second
iteration (a second `DATA` frame is pending and stays unread by the loop; it
is what answers `STOP_MOTOR`), and at a write request cancelled after its
first byte. -/
theorem cleanup_on_every_exit_witness :
    readTask 3 { Vars.defaults with readRequested := true }
      { World.init (frame GET_STATUS 0x08 ++ (frame START_MOTOR 1 ++
          (frames [(DATA, 0x41)] ++ (frame DATA 0x42 ++ [])))) [] with sigint := some 1 }
    = some (none, { World.init [] [] with
        interrupt := true,
        sent := [(GET_STATUS, 0), (START_MOTOR, 0), (STOP_MOTOR, 0)],
        stdout := [OutEv.putc 0x41] }) ∧
    writeTask 3 { Vars.defaults with writeRequested := true }
      { World.init (frame GET_STATUS 0x08 ++ (frame START_WRITE 0 ++
          (frames [(WRITE, 0)] ++ (frame STOP_WRITE 1 ++ [])))) [0x10, 0x20] with
        sigint := some 1 }
    = some (none, { World.init [] [0x20] with
        interrupt := true,
        sent := [(GET_STATUS, 0), (START_WRITE, 0), (WRITE, 0x10), (STOP_WRITE, 0)] }) := by
  have h1 := cleanup_on_every_exit.2.2.1 3 { Vars.defaults with readRequested := true }
    { World.init (frame GET_STATUS 0x08 ++ (frame START_MOTOR 1 ++
        (frames [(DATA, 0x41)] ++ (frame DATA 0x42 ++ [])))) [] with sigint := some 1 }
    0x08 START_MOTOR 1 DATA 0x42 [(DATA, 0x41)] [] rfl rfl rfl rfl (by decide)
    (by simp [DATA, DATA_EOT]) rfl (by decide)
  have h2 := cleanup_on_every_exit.2.2.2.1 3 { Vars.defaults with writeRequested := true }
    { World.init (frame GET_STATUS 0x08 ++ (frame START_WRITE 0 ++
        (frames [(WRITE, 0)] ++ (frame STOP_WRITE 1 ++ [])))) [0x10, 0x20] with
      sigint := some 1 }
    0x08 START_WRITE 0 STOP_WRITE 1 [0x10] [0x20] [] rfl rfl rfl rfl rfl rfl (by decide)
    rfl (by decide)
  rw [h1, h2]
  decide

/-! ## C7: a failed exchange -/

/-- The run of `lo8 -r` on a device that answers `DATA 0x41`, `DATA 0x42`,
`DATA_EOT 0x43`: exactly these three bytes on standard output, one
`STOP_MOTOR`, status 0. -/
theorem main_read_scenario :
    main 4 [Opt.read]
      (World.init (frame RESET_EOT 0 ++ frame GET_STATUS 0x08 ++ frame START_MOTOR 1 ++
        frames [(DATA, 0x41), (DATA, 0x42), (DATA_EOT, 0x43)] ++ frame STOP_MOTOR 1) [])
    = some (0, { World.init [] [] with
        opened := true, closed := true, speed := some Speed.B9600,
        sent := [(RESET_EOT, 0), (GET_STATUS, 0), (START_MOTOR, 0), (STOP_MOTOR, 0)],
        stdout := [OutEv.putc 0x41, OutEv.putc 0x42, OutEv.putc 0x43] }) := by
  decide

/-- The run of `lo8 -w` on the input `0x10, 0x20, 0x30` and a device that
reports end-of-tape on the third `WRITE` only: three `WRITE` frames with these
bytes, one `STOP_WRITE`, status 0. -/
theorem main_write_scenario :
    main 5 [Opt.write]
      (World.init (frame RESET_EOT 0 ++ frame GET_STATUS 0x08 ++ frame START_WRITE 0 ++
        frames [(WRITE, 0), (WRITE, 0), (WRITE, 1)] ++ frame STOP_WRITE 1) [0x10, 0x20, 0x30])
    = some (0, { World.init [] [] with
        opened := true, closed := true, speed := some Speed.B9600,
        sent := [(RESET_EOT, 0), (GET_STATUS, 0), (START_WRITE, 0), (WRITE, 0x10),
          (WRITE, 0x20), (WRITE, 0x30), (STOP_WRITE, 0)] }) := by
  decide

end Lo8
